import Mathlib

/-!
# Verification of the rabbit-quant core pipeline

Shallow embedding of the core numeric components of the repository:

* `simulate_portfolio_nb` (src/backtest/vbt_runner.py) — the Numba time-first
  portfolio simulation loop, embedded as a step function `stepBar` iterated by
  `simN` over bars `1 .. n_time - 1`.
* `hurst_rs` (src/signals/fractals.py, `_hurst_rs`) — rescaled-range Hurst
  estimator.
* `analyze_cycle` / `detect_dominant_cycle` (src/signals/cycles.py) — FFT cycle
  detection.
* `determine_signal` (src/signals/filters.py, `_determine_signal`).
* `run_parameter_sweep` row collection (src/backtest/vbt_runner.py).

Machine floats are modelled by an arbitrary linear ordered field `α` with a
floor function (instantiated at `ℝ` in theorems about the running program and
at `ℚ` for concrete evaluations); the float constant `np.pi` becomes an
explicit parameter `pi`, and the transcendental library functions used by the
cycle detector (`np.sin`, `np.cos`, `np.abs` on complex, `np.angle`) become
explicit function parameters, instantiated at `Real.sin`, `Real.cos`,
`Real.sqrt` and `Complex.arg` where a claim concerns their actual values.
-/

set_option linter.unusedSectionVars false

namespace RabbitQuant

/-- Python float modulo `a % b` (`b > 0` in all uses): `a - b * ⌊a / b⌋`. -/
def fmod {α : Type} [LinearOrderedField α] [FloorRing α] (a b : α) : α :=
  a - b * (⌊a / b⌋ : ℤ)

/-! ## Portfolio simulation engine (`simulate_portfolio_nb`) -/

/-- The 2D input matrices of `simulate_portfolio_nb`, as total functions
`(bar index, asset index) → value`; the loop only reads indices
`i < n_time`, `a < n_assets`. -/
structure SimInputs (α : Type) where
  n_time : ℕ
  n_assets : ℕ
  close : ℕ → ℕ → α
  high : ℕ → ℕ → α
  low : ℕ → ℕ → α
  atr : ℕ → ℕ → α
  phase_array : ℕ → ℕ → α
  ltf_metric : ℕ → ℕ → α
  htf_metric : ℕ → ℕ → α
  volatility_zscore : ℕ → ℕ → α
  htf_direction : ℕ → ℕ → α
  rank_metric : ℕ → ℕ → α
  hurst_value : ℕ → ℕ → α

/-- The scalar parameters of `simulate_portfolio_nb`.  `np.pi` is the
parameter `pi`; `macro_filter_type` (0 = chop, 1 = hurst, other = both) is
`filter_type`. -/
structure SimParams (α : Type) where
  pi : α
  htf_threshold : α
  ltf_threshold : α
  veto_threshold : α
  hurst_threshold : α
  filter_type : ℕ
  trailing_multiplier : α
  breakeven_threshold : α
  phase_long_center : α
  phase_short_center : α
  phase_tolerance : α
  max_concurrent_trades : ℤ

/-- Per-asset mutable state of the loop (`in_position_long[a]`, ...,
`is_breakeven[a]`). -/
structure AssetSt (α : Type) where
  in_position_long : Bool
  in_position_short : Bool
  entry_price : α
  highest_price : α
  lowest_price : α
  stop_loss : α
  is_breakeven : Bool

/-- Full mutable state: the per-asset arrays plus the scalar
`open_trades_count` counter. -/
structure SimSt (α : Type) where
  asset : ℕ → AssetSt α
  open_trades_count : ℤ

/-- Loop state together with the four output matrices being filled in. -/
structure SimOut (α : Type) where
  long_entries : ℕ → ℕ → Bool
  long_exits : ℕ → ℕ → Bool
  short_entries : ℕ → ℕ → Bool
  short_exits : ℕ → ℕ → Bool
  st : SimSt α

variable {α : Type} [LinearOrderedField α] [FloorRing α]

/-- Exit-phase body for an asset holding a LONG position
(vbt_runner.py lines 65-87): highest-price tracking, dynamic ATR
trailing raise, breakeven ratchet, stop hit check.  Returns the updated
per-asset state and whether a long exit fired. -/
def long_exit_step (p : SimParams α) (cl hi at_ : α) (s : AssetSt α) :
    AssetSt α × Bool :=
  let s := if s.highest_price < hi then { s with highest_price := hi } else s
  let tr := s.highest_price - at_ * p.trailing_multiplier
  let s := if s.stop_loss < tr then { s with stop_loss := tr } else s
  let s :=
    if s.is_breakeven = false ∧ s.entry_price + at_ * p.breakeven_threshold ≤ hi then
      let be := s.entry_price * (1002 / 1000 : α)
      if s.stop_loss < be then { s with stop_loss := be, is_breakeven := true } else s
    else s
  if cl ≤ s.stop_loss then ({ s with in_position_long := false }, true) else (s, false)

/-- Exit-phase body for an asset holding a SHORT position
(vbt_runner.py lines 89-110): the mirror image of `long_exit_step`. -/
def short_exit_step (p : SimParams α) (cl lo at_ : α) (s : AssetSt α) :
    AssetSt α × Bool :=
  let s := if lo < s.lowest_price then { s with lowest_price := lo } else s
  let tr := s.lowest_price + at_ * p.trailing_multiplier
  let s := if tr < s.stop_loss then { s with stop_loss := tr } else s
  let s :=
    if s.is_breakeven = false ∧ lo ≤ s.entry_price - at_ * p.breakeven_threshold then
      let be := s.entry_price * (998 / 1000 : α)
      if be < s.stop_loss then { s with stop_loss := be, is_breakeven := true } else s
    else s
  if s.stop_loss ≤ cl then ({ s with in_position_short := false }, true) else (s, false)

/-- One asset of the exit phase: dispatch on the current position
(lines 64-110).  Returns (new state, long exit fired, short exit fired). -/
def exit_step (inp : SimInputs α) (p : SimParams α) (i a : ℕ) (s : AssetSt α) :
    AssetSt α × Bool × Bool :=
  if s.in_position_long then
    let r := long_exit_step p (inp.close i a) (inp.high i a) (inp.atr i a) s
    (r.1, r.2, false)
  else if s.in_position_short then
    let r := short_exit_step p (inp.close i a) (inp.low i a) (inp.atr i a) s
    (r.1, false, r.2)
  else (s, false, false)

/-- Phase 1 of bar `i` (lines 63-110): process exits for every asset,
decrementing `open_trades_count` once per exit.  Returns the new state and
the two exit rows of bar `i`. -/
def exits_phase (inp : SimInputs α) (p : SimParams α) (i : ℕ) (st : SimSt α) :
    SimSt α × (ℕ → Bool) × (ℕ → Bool) :=
  let f : ℕ → AssetSt α × Bool × Bool := fun a => exit_step inp p i a (st.asset a)
  let lx : ℕ → Bool := fun a => decide (a < inp.n_assets) && (f a).2.1
  let sx : ℕ → Bool := fun a => decide (a < inp.n_assets) && (f a).2.2
  let asset' : ℕ → AssetSt α := fun a => if a < inp.n_assets then (f a).1 else st.asset a
  let exits : ℤ := ∑ a in Finset.range inp.n_assets, (if lx a || sx a then (1 : ℤ) else 0)
  (⟨asset', st.open_trades_count - exits⟩, lx, sx)

/-- Candidate evaluation of the entry phase for one asset (lines 117-151):
returns the (score, direction) pair written into `scores[a]` / `dirs[a]`,
with the untouched sentinel `(-1e10, 0)` when the asset is skipped. -/
def candidate (inp : SimInputs α) (p : SimParams α) (i a : ℕ) (st : SimSt α)
    (lx sx : ℕ → Bool) : α × ℤ :=
  if (st.asset a).in_position_long || (st.asset a).in_position_short || lx a || sx a then
    (-(10 : α) ^ 10, 0)
  else
    let phase := fmod (inp.phase_array i a) (2 * p.pi)
    if p.veto_threshold ≤ inp.volatility_zscore i a then (-(10 : α) ^ 10, 0)
    else
      let chop_valid : Bool :=
        decide (inp.htf_metric i a < p.htf_threshold) && decide (p.ltf_threshold < inp.ltf_metric i a)
      let hurst_valid : Bool := decide (p.hurst_threshold < inp.hurst_value i a)
      let valid : Bool :=
        if p.filter_type = 0 then chop_valid
        else if p.filter_type = 1 then hurst_valid
        else chop_valid && hurst_valid
      if valid = false then (-(10 : α) ^ 10, 0)
      else
        let prev_phase := fmod (inp.phase_array (i - 1) a) (2 * p.pi)
        if 0 ≤ inp.htf_direction i a then
          if |phase - p.phase_long_center| < p.phase_tolerance ∧
              ¬(|prev_phase - p.phase_long_center| < p.phase_tolerance) then
            (inp.rank_metric i a, 1)
          else (-(10 : α) ^ 10, 0)
        else if inp.htf_direction i a ≤ 0 then
          if |phase - p.phase_short_center| < p.phase_tolerance ∧
              ¬(|prev_phase - p.phase_short_center| < p.phase_tolerance) then
            (-inp.rank_metric i a, -1)
          else (-(10 : α) ^ 10, 0)
        else (-(10 : α) ^ 10, 0)

/-- Admission of one candidate (lines 160-174): record entry price and
high/low tracking, clear the breakeven latch, set the initial stop and the
position flag for the direction, increment the counter.  Returns the new
state and `true` iff the admission was a long entry. -/
def enter_asset (inp : SimInputs α) (p : SimParams α) (i a : ℕ) (d : ℤ)
    (st : SimSt α) : SimSt α × Bool :=
  let s := st.asset a
  let s := { s with entry_price := inp.close i a, highest_price := inp.high i a,
                    lowest_price := inp.low i a, is_breakeven := false }
  if d = 1 then
    let s := { s with in_position_long := true,
                      stop_loss := s.entry_price - inp.atr i a * p.trailing_multiplier }
    (⟨Function.update st.asset a s, st.open_trades_count + 1⟩, true)
  else
    let s := { s with in_position_short := true,
                      stop_loss := s.entry_price + inp.atr i a * p.trailing_multiplier }
    (⟨Function.update st.asset a s, st.open_trades_count + 1⟩, false)

/-- The admission loop over the score-sorted candidate list
(lines 156-174), with the `break` on a sentinel score or a full budget.
The accumulator carries the state and the two entry rows of bar `i`. -/
def entryLoop (inp : SimInputs α) (p : SimParams α) (i : ℕ) (scores : ℕ → α)
    (dirs : ℕ → ℤ) : List ℕ → SimSt α × (ℕ → Bool) × (ℕ → Bool) →
    SimSt α × (ℕ → Bool) × (ℕ → Bool)
  | [], acc => acc
  | a :: rest, acc =>
    if scores a ≤ -(10 : α) ^ 9 ∨ p.max_concurrent_trades ≤ acc.1.open_trades_count then acc
    else
      let r := enter_asset inp p i a (dirs a) acc.1
      if r.2 then
        entryLoop inp p i scores dirs rest (r.1, Function.update acc.2.1 a true, acc.2.2)
      else
        entryLoop inp p i scores dirs rest (r.1, acc.2.1, Function.update acc.2.2 a true)

/-- The scores array of the entry phase (line 115 and the loop filling it):
sentinel `-1e10` outside the asset range, otherwise the candidate score. -/
def entryScores (inp : SimInputs α) (p : SimParams α) (i : ℕ) (st : SimSt α)
    (lx sx : ℕ → Bool) : ℕ → α := fun a =>
  if a < inp.n_assets then (candidate inp p i a st lx sx).1 else -(10 : α) ^ 10

/-- The dirs array of the entry phase (line 116). -/
def entryDirs (inp : SimInputs α) (p : SimParams α) (i : ℕ) (st : SimSt α)
    (lx sx : ℕ → Bool) : ℕ → ℤ := fun a =>
  if a < inp.n_assets then (candidate inp p i a st lx sx).2 else 0

/-- Phase 2 of bar `i` (lines 112-174): when the budget has room, score the
candidates, sort descending by score (`np.argsort(scores)[::-1]`; the
original's tie order among equal scores is arbitrary — an unstable sort —
so ties here follow the deterministic order of `List.insertionSort`) and
run the admission loop.  Returns the new state and the two entry rows. -/
def entries_phase (inp : SimInputs α) (p : SimParams α) (i : ℕ) (st : SimSt α)
    (lx sx : ℕ → Bool) : SimSt α × (ℕ → Bool) × (ℕ → Bool) :=
  if st.open_trades_count < p.max_concurrent_trades then
    let scores := entryScores inp p i st lx sx
    let dirs := entryDirs inp p i st lx sx
    let sorted := List.insertionSort (fun a b => scores b ≤ scores a) (List.range inp.n_assets)
    entryLoop inp p i scores dirs sorted (st, fun _ => false, fun _ => false)
  else (st, fun _ => false, fun _ => false)

/-- One iteration of the time loop (bar `i`, lines 62-174): exits first,
then entries; the rows computed for bar `i` are written into row `i` of the
four matrices. -/
def stepBar (inp : SimInputs α) (p : SimParams α) (i : ℕ) (o : SimOut α) : SimOut α :=
  let e := exits_phase inp p i o.st
  let r := entries_phase inp p i e.1 e.2.1 e.2.2
  { long_entries := fun i' a => if i' = i then r.2.1 a else o.long_entries i' a,
    long_exits := fun i' a => if i' = i then e.2.1 a else o.long_exits i' a,
    short_entries := fun i' a => if i' = i then r.2.2 a else o.short_entries i' a,
    short_exits := fun i' a => if i' = i then e.2.2 a else o.short_exits i' a,
    st := r.1 }

/-- Initial state: zeroed boolean matrices, all assets flat,
`open_trades_count = 0` (lines 47-60). -/
def initSimOut : SimOut α :=
  ⟨fun _ _ => false, fun _ _ => false, fun _ _ => false, fun _ _ => false,
    ⟨fun _ => ⟨false, false, 0, 0, 0, 0, false⟩, 0⟩⟩

/-- State and matrices after processing bars `1 .. k`. -/
def simN (inp : SimInputs α) (p : SimParams α) : ℕ → SimOut α
  | 0 => initSimOut
  | k + 1 => stepBar inp p (k + 1) (simN inp p k)

/-- The whole loop `for i in range(1, n_time)`: process bars
`1 .. n_time - 1`. -/
def simulate_portfolio_nb (inp : SimInputs α) (p : SimParams α) : SimOut α :=
  simN inp p (inp.n_time - 1)

/-! ### Basic lemmas about the engine -/

/-- `1` iff the asset currently holds an open position. -/
def posInd (s : AssetSt α) : ℤ :=
  if s.in_position_long || s.in_position_short then 1 else 0

/-- Number of open positions among the first `n` assets. -/
def openZ (n : ℕ) (st : SimSt α) : ℤ :=
  ∑ a in Finset.range n, posInd (st.asset a)

/-- No asset is simultaneously long and short. -/
def exclusive (st : SimSt α) : Prop :=
  ∀ b, ¬((st.asset b).in_position_long = true ∧ (st.asset b).in_position_short = true)

/-! ## Signal combiner (`_determine_signal`, src/signals/filters.py) -/

/-- The three signal values of `_determine_signal`. -/
inductive Signal where
  | long : Signal
  | short : Signal
  | neutral : Signal
deriving DecidableEq

/-- `_determine_signal` (filters.py lines 88-122): NEUTRAL below the Hurst
threshold, otherwise zone tests around `3π/2` (long) and `π/2` (short) with
tolerance `π/4`; `np.pi` is the parameter `pi`. -/
def determine_signal (pi current_phase hurst_value hurst_threshold : α) : Signal :=
  if hurst_value < hurst_threshold then Signal.neutral
  else
    let phase := fmod current_phase (2 * pi)
    let bottom_center := 3 * pi / 2
    let top_center := pi / 2
    let tol := pi / 4
    if |phase - bottom_center| < tol then Signal.long
    else if |phase - top_center| < tol then Signal.short
    else Signal.neutral

/-! ## Persistence estimator (`_hurst_rs`, src/signals/fractals.py)

`np.sqrt` and `np.log` are the explicit function parameters `sqrtF`,
`logF`, instantiated at `Real.sqrt` / `Real.log` in theorems about the
running program. -/

/-- `np.max` of a nonempty array (0 on the empty list, which the estimator
never hits: sub-series sizes are at least 4). -/
def listMax : List α → α
  | [] => 0
  | x :: xs => xs.foldl max x

/-- `np.min` of a nonempty array. -/
def listMin : List α → α
  | [] => 0
  | x :: xs => xs.foldl min x

/-- Mean of the sub-series `prices[start : start + size]`
(fractals.py lines 127-131). -/
def subMean (prices : List α) (start size : ℕ) : α :=
  (∑ t in Finset.range size, prices.getD (start + t) 0) / (size : α)

/-- Population standard deviation of the sub-series (lines 133-137). -/
def subStd (sqrtF : α → α) (prices : List α) (start size : ℕ) : α :=
  sqrtF ((∑ t in Finset.range size,
    (prices.getD (start + t) 0 - subMean prices start size) ^ 2) / (size : α))

/-- Cumulative deviation from the mean, `cum_dev[k]` (lines 142-146). -/
def cumDev (prices : List α) (start size k : ℕ) : α :=
  ∑ t in Finset.range (k + 1), (prices.getD (start + t) 0 - subMean prices start size)

/-- `R/S` of one sub-series; `none` when its standard deviation is exactly 0
(the sub-series is skipped, lines 139-151). -/
def rsOfSub (sqrtF : α → α) (prices : List α) (start size : ℕ) : Option α :=
  if subStd sqrtF prices start size = 0 then none
  else
    let devs := (List.range size).map (cumDev prices start size)
    some ((listMax devs - listMin devs) / subStd sqrtF prices start size)

/-- `rs_sum` for one size (lines 119-151). -/
def rsSum (sqrtF : α → α) (prices : List α) (size : ℕ) : α :=
  ∑ j in Finset.range (prices.length / size),
    (rsOfSub sqrtF prices (j * size) size).getD 0

/-- `valid_count` for one size. -/
def rsCount (sqrtF : α → α) (prices : List α) (size : ℕ) : ℕ :=
  ((Finset.range (prices.length / size)).filter
    (fun j => rsOfSub sqrtF prices (j * size) size ≠ none)).card

/-- `log_sizes[i]` (the size of slot `i` is `2 ^ (i + 2)`). -/
def log_size (logF : α → α) (i : ℕ) : α := logF ((2 ^ (i + 2) : ℕ) : α)

/-- `log_rs[i]` (lines 110-158): 0 when there are no sub-series or none was
valid, otherwise the log of the averaged R/S. -/
def log_rs (logF sqrtF : α → α) (prices : List α) (i : ℕ) : α :=
  let size := 2 ^ (i + 2)
  if prices.length / size = 0 then 0
  else if 0 < rsCount sqrtF prices size then
    logF (rsSum sqrtF prices size / (rsCount sqrtF prices size : α))
  else 0

/-- `_hurst_rs` (fractals.py lines 72-197).  The OLS regression runs over
exactly the slots with `log_rs[i] > 0`; fewer than 2 such slots (or a zero
denominator) yields the neutral 0.5, and the slope is clamped to `[0, 1]`. -/
def hurst_rs (logF sqrtF : α → α) (prices : List α) : α :=
  let n := prices.length
  if n < 20 then 1 / 2
  else
    let max_k := Nat.log2 n
    if max_k ≤ 2 then 1 / 2
    else
      let num_sizes := max_k - 2 + 1
      let idx := (Finset.range num_sizes).filter
        (fun i => 0 < log_rs logF sqrtF prices i)
      if idx.card < 2 then 1 / 2
      else
        let mean_x := (∑ i in idx, log_size logF i) / (idx.card : α)
        let mean_y := (∑ i in idx, log_rs logF sqrtF prices i) / (idx.card : α)
        let num := ∑ i in idx,
          (log_size logF i - mean_x) * (log_rs logF sqrtF prices i - mean_y)
        let den := ∑ i in idx, (log_size logF i - mean_x) ^ 2
        if den = 0 then 1 / 2
        else
          let hurst := num / den
          if hurst < 0 then 0 else if 1 < hurst then 1 else hurst

/-- The averaged R/S of a size slot (0 when no sub-series was valid). -/
def rsAvg (sqrtF : α → α) (prices : List α) (size : ℕ) : α :=
  if prices.length / size = 0 ∨ rsCount sqrtF prices size = 0 then 0
  else rsSum sqrtF prices size / (rsCount sqrtF prices size : α)

/-- The estimator as the specification words it ("ordinary least squares
over only the sizes with strictly positive averaged R/S"): identical to
`hurst_rs` except that the regression slots are those with `rsAvg > 0`
rather than those with `log_rs > 0`.  Used to compare the claim's reading
against the source. -/
def hurst_rs_spec (logF sqrtF : α → α) (prices : List α) : α :=
  let n := prices.length
  if n < 20 then 1 / 2
  else
    let max_k := Nat.log2 n
    if max_k ≤ 2 then 1 / 2
    else
      let num_sizes := max_k - 2 + 1
      let idx := (Finset.range num_sizes).filter
        (fun i => 0 < rsAvg sqrtF prices (2 ^ (i + 2)))
      if idx.card < 2 then 1 / 2
      else
        let mean_x := (∑ i in idx, log_size logF i) / (idx.card : α)
        let mean_y := (∑ i in idx, log_rs logF sqrtF prices i) / (idx.card : α)
        let num := ∑ i in idx,
          (log_size logF i - mean_x) * (log_rs logF sqrtF prices i - mean_y)
        let den := ∑ i in idx, (log_size logF i - mean_x) ^ 2
        if den = 0 then 1 / 2
        else
          let hurst := num / den
          if hurst < 0 then 0 else if 1 < hurst then 1 else hurst

/-- The alternating 0/1 price series of length 20 (every sub-series has
`R/S = 1`, hence averaged `R/S = 1` exactly). -/
def altPrices (α : Type) [LinearOrderedField α] : List α :=
  (List.range 20).map (fun j => if j % 2 = 0 then 0 else 1)

/-- A 256-sample series with a single unit spike at index 32 and zero
endpoints: the detrend line is flat, every FFT bin has power exactly 1, so
the band peak search lands on the first in-band bin. -/
def cexPrices (α : Type) [LinearOrderedField α] : List α :=
  (List.range 256).map (fun j => if j = 32 then 1 else 0)

/-- The 0/1 pattern of the in-band power mask for a 256-sample series with
the default band [10, 200]: bins 2..25 carry power 1, the rest 0.  Stated
over ℚ so the peak index can be computed. -/
def cexMaskQ : List ℚ :=
  (List.range 129).map (fun k => if 2 ≤ k ∧ k ≤ 25 then 1 else 0)

/-! ## Cycle detector (`_analyze_cycle` / `detect_dominant_cycle`,
src/signals/cycles.py)

The real FFT is embedded as its mathematical definition
`c_k = Σ_j x_j · exp(-2πijk/n)`, written with its real and imaginary
parts; `np.sin`/`np.cos`/`np.abs`/`np.angle` are the explicit function
parameters `sinF`/`cosF`/`sqrtF`/`angleF` (`angleF im re` is
`atan2(im, re)`), instantiated at the real functions in theorems about the
running program. -/

/-- The result dict of `_analyze_cycle`. -/
structure CycleResult (α : Type) where
  dominant_period : ℤ
  phase_array : List α
  projection_array : List α
  amplitude : α
  current_phase : α
deriving DecidableEq

/-- `np.argmax` helper: first index of the maximum, scanning with a running
best. -/
def argmaxAux : List α → ℕ → ℕ → α → ℕ
  | [], _, bi, _ => bi
  | v :: rest, idx, bi, bv =>
    if bv < v then argmaxAux rest (idx + 1) idx v else argmaxAux rest (idx + 1) bi bv

/-- `np.argmax` (first index of the maximum; 0 on the empty list). -/
def argmaxIdx : List α → ℕ
  | [] => 0
  | v :: rest => argmaxAux rest 1 0 v

/-- The detrended series (cycles.py lines 127-131): subtract the straight
line through the first and last sample. -/
def detrendedF (prices : List α) : ℕ → α := fun j =>
  prices.getD j 0 - (prices.getD 0 0 +
    (prices.getD (prices.length - 1) 0 - prices.getD 0 0) / ((prices.length : α) - 1) * (j : α))

/-- The band mask `valid_mask` on frequency bin `k` of an `n`-point series
(lines 138-144): `min_freq < k/n ≤ max_freq`, with `min_freq = 1/max_period`
(0 when `max_period = 0`) and `max_freq = 1/min_period`
(0.5 when `min_period = 0`). -/
def validBin (min_period max_period n : ℕ) (k : ℕ) : Bool :=
  decide ((if 0 < max_period then 1 / (max_period : α) else 0) < (k : α) / (n : α)) &&
    decide ((k : α) / (n : α) ≤ (if 0 < min_period then 1 / (min_period : α) else 1 / 2))

/-- Real part of the `rfft` coefficient `c_k = Σ_j x_j · exp(-2πijk/n)` of
the detrended series. -/
def fftRe (pi : α) (cosF : α → α) (prices : List α) (k : ℕ) : α :=
  ∑ j in Finset.range prices.length,
    detrendedF prices j * cosF (2 * pi * (j : α) * (k : α) / (prices.length : α))

/-- Imaginary part of the `rfft` coefficient. -/
def fftIm (pi : α) (sinF : α → α) (prices : List α) (k : ℕ) : α :=
  -∑ j in Finset.range prices.length,
    detrendedF prices j * sinF (2 * pi * (j : α) * (k : α) / (prices.length : α))

/-- `np.abs(fft_vals) ** 2` at bin `k` (line 135). -/
def fftPower (pi : α) (sinF cosF : α → α) (prices : List α) (k : ℕ) : α :=
  fftRe pi cosF prices k ^ 2 + fftIm pi sinF prices k ^ 2

/-- `valid_power = np.where(valid_mask, fft_power, 0.0)` over the
`n/2 + 1` rfft bins (line 156). -/
def validPower (pi : α) (sinF cosF : α → α) (prices : List α)
    (min_period max_period : ℕ) : List α :=
  (List.range (prices.length / 2 + 1)).map (fun k =>
    if validBin (α := α) min_period max_period prices.length k = true
    then fftPower pi sinF cosF prices k else 0)

/-- The non-degenerate branch of `_analyze_cycle` (lines 155-181): peak
bin by `np.argmax`, period/amplitude/phase extraction, sine
reconstruction and forward projection. -/
def analyze_cycle_main (pi : α) (sinF cosF sqrtF : α → α) (angleF : α → α → α)
    (prices : List α) (min_period max_period projection_bars : ℕ) : CycleResult α :=
  let n := prices.length
  let peak_idx := argmaxIdx (validPower pi sinF cosF prices min_period max_period)
  let dominant_freq := (peak_idx : α) / (n : α)
  let dominant_period : ℤ := if 0 < dominant_freq then round ((1 : α) / dominant_freq) else 0
  let phase_angle := angleF (fftIm pi sinF prices peak_idx) (fftRe pi cosF prices peak_idx)
  let amplitude := 2 * sqrtF (fftPower pi sinF cosF prices peak_idx) / (n : α)
  let phase_array := (List.range n).map
    (fun (j : ℕ) => amplitude * sinF (2 * pi * dominant_freq * (j : α) + phase_angle))
  let projection_array := (List.range projection_bars).map
    (fun (jj : ℕ) => amplitude * sinF (2 * pi * dominant_freq * ((n : α) + (jj : α)) + phase_angle))
  let current_phase := fmod (2 * pi * dominant_freq * ((n : α) - 1) + phase_angle) (2 * pi)
  ⟨dominant_period, phase_array, projection_array, amplitude, current_phase⟩

/-- `_analyze_cycle` (cycles.py lines 96-181): endpoint detrend, real FFT,
band-restricted peak search (`freqs > 1/max_period` and
`freqs ≤ 1/min_period`, DC excluded), degenerate all-zero result when no
bin is in band, otherwise the sine reconstruction of
`analyze_cycle_main`. -/
def analyze_cycle (pi : α) (sinF cosF sqrtF : α → α) (angleF : α → α → α)
    (prices : List α) (min_period max_period projection_bars : ℕ) : CycleResult α :=
  if ((List.range (prices.length / 2 + 1)).any
      (validBin (α := α) min_period max_period prices.length)) = false then
    ⟨0, List.replicate prices.length 0, List.replicate projection_bars 0, 0, 0⟩
  else analyze_cycle_main pi sinF cosF sqrtF angleF prices min_period max_period projection_bars

/-- `detect_dominant_cycle` (cycles.py lines 16-39): `None` for fewer than
256 samples, otherwise `_analyze_cycle` with the default band
`[min_period, max_period] = [10, 200]` and 20 projection bars. -/
def detect_dominant_cycle (pi : α) (sinF cosF sqrtF : α → α) (angleF : α → α → α)
    (prices : List α) : Option (CycleResult α) :=
  if prices.length < 256 then none
  else some (analyze_cycle pi sinF cosF sqrtF angleF prices 10 200 20)

/-! ## Parameter sweep driver (`run_parameter_sweep`,
src/backtest/vbt_runner.py lines 359-443)

Only the parameter tuple of each appended row is modelled (the metric
columns of a row come from the backtest result and do not affect the row
count or the tuple uniqueness the claims are about). -/

/-- The parameter tuple of one sweep result row. -/
structure SweepRow (α : Type) where
  hurst_threshold : α
  phase_long : α
  phase_short : α
  trailing_multiplier : α
  m_filter : String
deriving DecidableEq

/-- The quadruple loop nest over hurst, phase-long, phase-short and
trailing ranges, in source order. -/
def sweepQuads (hs pls pss tms : List α) : List (α × α × α × α) :=
  hs.bind fun h => pls.bind fun pl => pss.bind fun ps => tms.map fun tm => (h, pl, ps, tm)

/-- The rows collected by `run_parameter_sweep`: the `row` dict is rebuilt
inside the innermost (`macro_filter_type`) loop, but `results.append(row)`
sits at the level of the `trailing_multiplier` loop body (lines 425-438),
so one row — the last one built — is appended per quadruple.  The `Option`
state carries the current value of the `row` variable; a read before any
assignment (an empty filter-type range on the first quadruple) is Python's
`NameError`, modelled as the overall result `none`. -/
def run_parameter_sweep_rows (hs pls pss tms : List α) (mfs : List String) :
    Option (List (SweepRow α)) :=
  ((sweepQuads hs pls pss tms).foldl
    (fun st q => st.bind fun pr =>
      match mfs.foldl (fun _cur mf => some (⟨q.1, q.2.1, q.2.2.1, q.2.2.2, mf⟩ : SweepRow α)) pr.1 with
      | none => none
      | some r => some (some r, pr.2 ++ [r]))
    (some (none, []))).map (fun pr => pr.2)

/-- The row list the specification describes: one row per element of the
full 5-way Cartesian product, in loop-nest order. -/
def sweep_rows_spec (hs pls pss tms : List α) (mfs : List String) : List (SweepRow α) :=
  (sweepQuads hs pls pss tms).bind fun q =>
    mfs.map fun mf => ⟨q.1, q.2.1, q.2.2.1, q.2.2.2, mf⟩

/-! ## Concrete scenarios (generic in the field, instantiated at `ℚ` for
evaluation and at `ℝ` with `Real.pi` for claims about the running
program) -/

/-- One asset over three bars: a long entry fires at bar 1
(phase rising edge into the long zone, all filters pass) and the stop is
hit at bar 2. -/
def scenA (α : Type) [LinearOrderedField α] : SimInputs α where
  n_time := 3
  n_assets := 1
  close := fun i _ => if i = 1 then 10 else if i = 2 then 8 else 5
  high := fun i _ => if i = 1 then 10 else if i = 2 then 10 else 5
  low := fun _ _ => 0
  atr := fun _ _ => 1
  phase_array := fun i _ => if i = 1 then 0 else 2
  ltf_metric := fun _ _ => 100
  htf_metric := fun _ _ => 0
  volatility_zscore := fun _ _ => 0
  htf_direction := fun _ _ => 1
  rank_metric := fun _ _ => 0
  hurst_value := fun _ _ => 1

/-- Parameters for the scenarios (hurst-only macro filter, generous
budget, phase centers making bar 1 a rising edge into the long zone). -/
def scenP (α : Type) [LinearOrderedField α] (pi : α) : SimParams α where
  pi := pi
  htf_threshold := 45
  ltf_threshold := 618 / 10
  veto_threshold := 3
  hurst_threshold := 1 / 2
  filter_type := 1
  trailing_multiplier := 1
  breakeven_threshold := 5
  phase_long_center := 0
  phase_short_center := 10
  phase_tolerance := 1
  max_concurrent_trades := 3

/-- As `scenA`, but bar 2 does not hit the stop and makes a higher high:
the position is held and the trailing stop ratchets up. -/
def scenHold (α : Type) [LinearOrderedField α] : SimInputs α :=
  { scenA α with
    close := fun i _ => if i = 1 then 10 else if i = 2 then 10 else 5
    high := fun i _ => if i = 1 then 10 else if i = 2 then 21 / 2 else 5 }

/-- Mirror scenario: negative higher-timeframe direction, a short entry at
bar 1 and a short stop hit at bar 2. -/
def scenShort (α : Type) [LinearOrderedField α] : SimInputs α :=
  { scenA α with
    htf_direction := fun _ _ => -1
    close := fun i _ => if i = 1 then 10 else if i = 2 then 12 else 5
    high := fun i _ => if i = 1 then 10 else if i = 2 then 12 else 5
    low := fun i _ => if i = 1 then 9 else 11 }

/-- Parameters for the short scenario (short zone centred where the phase
edge is). -/
def scenShortP (α : Type) [LinearOrderedField α] (pi : α) : SimParams α :=
  { scenP α pi with phase_short_center := 0, phase_long_center := 10 }

/-- As `scenA`, but the persistence score is 0 at every bar — below the 0.5
threshold of `scenP`. -/
def scenNoHurst (α : Type) [LinearOrderedField α] : SimInputs α :=
  { scenA α with hurst_value := fun _ _ => 0 }

/-- Parameters selecting the chop-only macro filter
(`macro_filter_type = "chop"`), everything else as in `scenP`. -/
def scenChopP (α : Type) [LinearOrderedField α] (pi : α) : SimParams α :=
  { scenP α pi with filter_type := 0 }

theorem sentinel_le (α : Type) [LinearOrderedField α] : -(10 : α) ^ 10 ≤ -(10 : α) ^ 9 := by
  have h : (10 : α) ^ 9 ≤ (10 : α) ^ 10 :=
    pow_le_pow_right₀ (by norm_num) (by norm_num)
  linarith

theorem long_exit_step_short_flag (p : SimParams α) (cl hi at_ : α) (s : AssetSt α) :
    ((long_exit_step p cl hi at_ s).1).in_position_short = s.in_position_short := by
  simp only [long_exit_step]
  split_ifs <;> rfl

theorem long_exit_step_long_flag (p : SimParams α) (cl hi at_ : α) (s : AssetSt α) :
    ((long_exit_step p cl hi at_ s).1).in_position_long =
      (!(long_exit_step p cl hi at_ s).2 && s.in_position_long) := by
  simp only [long_exit_step]
  split_ifs <;> rfl

theorem long_exit_step_stop (p : SimParams α) (cl hi at_ : α) (s : AssetSt α) :
    s.stop_loss ≤ ((long_exit_step p cl hi at_ s).1).stop_loss := by
  simp only [long_exit_step]
  split_ifs <;> simp <;> linarith

theorem short_exit_step_long_flag (p : SimParams α) (cl lo at_ : α) (s : AssetSt α) :
    ((short_exit_step p cl lo at_ s).1).in_position_long = s.in_position_long := by
  simp only [short_exit_step]
  split_ifs <;> rfl

theorem short_exit_step_short_flag (p : SimParams α) (cl lo at_ : α) (s : AssetSt α) :
    ((short_exit_step p cl lo at_ s).1).in_position_short =
      (!(short_exit_step p cl lo at_ s).2 && s.in_position_short) := by
  simp only [short_exit_step]
  split_ifs <;> rfl

theorem short_exit_step_stop (p : SimParams α) (cl lo at_ : α) (s : AssetSt α) :
    ((short_exit_step p cl lo at_ s).1).stop_loss ≤ s.stop_loss := by
  simp only [short_exit_step]
  split_ifs <;> simp <;> linarith

/-- The flag changes of the exit dispatch, in all cases. -/
theorem exit_step_flags (inp : SimInputs α) (p : SimParams α) (i a : ℕ) (s : AssetSt α) :
    ((exit_step inp p i a s).1.in_position_long =
        (!(exit_step inp p i a s).2.1 && s.in_position_long)) ∧
      ((exit_step inp p i a s).1.in_position_short =
        (!(exit_step inp p i a s).2.2 && s.in_position_short)) := by
  simp only [exit_step]
  split_ifs with h1 h2
  · constructor
    · exact long_exit_step_long_flag ..
    · simp [long_exit_step_short_flag, h1]
  · constructor
    · simp [short_exit_step_long_flag, h1]
    · exact short_exit_step_short_flag ..
  · simp [h1, h2]

/-- A long exit can fire only out of an open long position, a short exit
only out of an open short position. -/
theorem exit_step_fire (inp : SimInputs α) (p : SimParams α) (i a : ℕ) (s : AssetSt α) :
    ((exit_step inp p i a s).2.1 = true → s.in_position_long = true) ∧
      ((exit_step inp p i a s).2.2 = true → s.in_position_short = true) := by
  simp only [exit_step]
  split_ifs with h1 h2 <;> simp_all

theorem enter_asset_count (inp : SimInputs α) (p : SimParams α) (i a : ℕ) (d : ℤ)
    (st : SimSt α) :
    (enter_asset inp p i a d st).1.open_trades_count = st.open_trades_count + 1 := by
  simp only [enter_asset]
  split_ifs <;> rfl

theorem enter_asset_ne (inp : SimInputs α) (p : SimParams α) (i a : ℕ) (d : ℤ)
    (st : SimSt α) (b : ℕ) (h : b ≠ a) :
    (enter_asset inp p i a d st).1.asset b = st.asset b := by
  simp only [enter_asset]
  split_ifs <;> simp [Function.update_noteq h]

theorem enter_asset_flags (inp : SimInputs α) (p : SimParams α) (i a : ℕ) (d : ℤ)
    (st : SimSt α) :
    ((enter_asset inp p i a d st).1.asset a).in_position_long
        = (decide (d = 1) || (st.asset a).in_position_long) ∧
      ((enter_asset inp p i a d st).1.asset a).in_position_short
        = (!decide (d = 1) || (st.asset a).in_position_short) := by
  simp only [enter_asset]
  split_ifs with h <;> simp [h, Function.update_same]

theorem enter_asset_dir (inp : SimInputs α) (p : SimParams α) (i a : ℕ) (d : ℤ)
    (st : SimSt α) : (enter_asset inp p i a d st).2 = decide (d = 1) := by
  simp only [enter_asset]
  split_ifs with h <;> simp [h]

/-- An asset whose score is the untouched sentinel is never admitted: its
state and its entry flags pass through the admission loop unchanged. -/
theorem entryLoop_skip (inp : SimInputs α) (p : SimParams α) (i : ℕ) (scores : ℕ → α)
    (dirs : ℕ → ℤ) (a : ℕ) (hs : scores a ≤ -(10 : α) ^ 9) :
    ∀ (l : List ℕ) (acc : SimSt α × (ℕ → Bool) × (ℕ → Bool)),
      (entryLoop inp p i scores dirs l acc).1.asset a = acc.1.asset a ∧
        (entryLoop inp p i scores dirs l acc).2.1 a = acc.2.1 a ∧
        (entryLoop inp p i scores dirs l acc).2.2 a = acc.2.2 a
  | [], acc => ⟨rfl, rfl, rfl⟩
  | hd :: tl, acc => by
    simp only [entryLoop]
    split_ifs with hbr hlong
    · exact ⟨rfl, rfl, rfl⟩
    all_goals {
      have hne : a ≠ hd := by
        rintro rfl
        exact hbr (Or.inl hs)
      have hju := enter_asset_ne inp p i hd (dirs hd) acc.1 a hne
      refine ⟨((entryLoop_skip inp p i scores dirs a hs tl _).1).trans ?_,
        ((entryLoop_skip inp p i scores dirs a hs tl _).2.1).trans ?_,
        ((entryLoop_skip inp p i scores dirs a hs tl _).2.2).trans ?_⟩ <;>
      first
      | exact hju
      | exact Function.update_noteq hne _ _
      | rfl
    }

/-- An entry flag set by the admission loop comes from an admission: the
score exceeded the sentinel threshold and the direction matches. -/
theorem entryLoop_flag (inp : SimInputs α) (p : SimParams α) (i : ℕ) (scores : ℕ → α)
    (dirs : ℕ → ℤ) (a : ℕ) :
    ∀ (l : List ℕ) (acc : SimSt α × (ℕ → Bool) × (ℕ → Bool)),
      ((entryLoop inp p i scores dirs l acc).2.1 a = true →
        acc.2.1 a = true ∨ (¬scores a ≤ -(10 : α) ^ 9 ∧ dirs a = 1)) ∧
      ((entryLoop inp p i scores dirs l acc).2.2 a = true →
        acc.2.2 a = true ∨ (¬scores a ≤ -(10 : α) ^ 9 ∧ dirs a ≠ 1))
  | [], acc => ⟨fun h => Or.inl h, fun h => Or.inl h⟩
  | hd :: tl, acc => by
    simp only [entryLoop]
    split_ifs with hbr hlong
    · exact ⟨fun h => Or.inl h, fun h => Or.inl h⟩
    · -- long admission of `hd`
      have hsc : ¬scores hd ≤ -(10 : α) ^ 9 := fun h => hbr (Or.inl h)
      have hd1 : dirs hd = 1 := by
        have hdir := enter_asset_dir inp p i hd (dirs hd) acc.1
        rw [hdir, decide_eq_true_eq] at hlong
        exact hlong
      constructor
      · intro hset
        rcases (entryLoop_flag inp p i scores dirs a tl _).1 hset with h | h
        · by_cases hae : a = hd
          · subst hae
            exact Or.inr ⟨hsc, hd1⟩
          · replace h : Function.update acc.2.1 hd true a = true := h
            rw [Function.update_noteq hae] at h
            exact Or.inl h
        · exact Or.inr h
      · intro hset
        rcases (entryLoop_flag inp p i scores dirs a tl _).2 hset with h | h
        · exact Or.inl h
        · exact Or.inr h
    · -- short admission of `hd`
      have hsc : ¬scores hd ≤ -(10 : α) ^ 9 := fun h => hbr (Or.inl h)
      have hd1 : dirs hd ≠ 1 := by
        intro h1
        have hdir := enter_asset_dir inp p i hd (dirs hd) acc.1
        rw [hdir, decide_eq_true_eq] at hlong
        exact hlong h1
      constructor
      · intro hset
        rcases (entryLoop_flag inp p i scores dirs a tl _).1 hset with h | h
        · exact Or.inl h
        · exact Or.inr h
      · intro hset
        rcases (entryLoop_flag inp p i scores dirs a tl _).2 hset with h | h
        · by_cases hae : a = hd
          · subst hae
            exact Or.inr ⟨hsc, hd1⟩
          · replace h : Function.update acc.2.2 hd true a = true := h
            rw [Function.update_noteq hae] at h
            exact Or.inl h
        · exact Or.inr h

/-- A candidate score above the break threshold `-1e9` implies the asset was
flat after this bar's exits, had no exit flag this bar, and received a
direction consistent with the higher-timeframe gate. -/
theorem candidate_spec (inp : SimInputs α) (p : SimParams α) (i a : ℕ) (st : SimSt α)
    (lx sx : ℕ → Bool) (h : -(10 : α) ^ 9 < (candidate inp p i a st lx sx).1) :
    (st.asset a).in_position_long = false ∧ (st.asset a).in_position_short = false ∧
      lx a = false ∧ sx a = false ∧
      (((candidate inp p i a st lx sx).2 = 1 ∧ 0 ≤ inp.htf_direction i a) ∨
        ((candidate inp p i a st lx sx).2 = -1 ∧ inp.htf_direction i a < 0)) := by
  have hsent : ¬(-(10 : α) ^ 9 < -(10 : α) ^ 10) := not_lt.2 (sentinel_le α)
  revert h
  simp only [candidate]
  split_ifs
  all_goals intro h
  all_goals try exact absurd h hsent
  all_goals simp only [Bool.or_eq_true, not_or, Bool.not_eq_true] at *
  all_goals push_neg at *
  all_goals refine ⟨by simp_all, by simp_all, by simp_all, by simp_all, ?_⟩
  all_goals first
    | exact Or.inl ⟨by simp, by assumption⟩
    | exact Or.inr ⟨by simp, by assumption⟩

/-- With a persistence-inclusive macro filter (`filter_type ≠ 0`) and a
persistence value not above the threshold, the candidate is rejected with
the sentinel score. -/
theorem candidate_hurst (inp : SimInputs α) (p : SimParams α) (i a : ℕ) (st : SimSt α)
    (lx sx : ℕ → Bool) (hft : p.filter_type ≠ 0)
    (hh : ¬(p.hurst_threshold < inp.hurst_value i a)) :
    (candidate inp p i a st lx sx).1 = -(10 : α) ^ 10 := by
  simp only [candidate]
  have hv : (if p.filter_type = 0 then
      (decide (inp.htf_metric i a < p.htf_threshold) && decide (p.ltf_threshold < inp.ltf_metric i a))
    else if p.filter_type = 1 then decide (p.hurst_threshold < inp.hurst_value i a)
    else (decide (inp.htf_metric i a < p.htf_threshold) && decide (p.ltf_threshold < inp.ltf_metric i a)) &&
      decide (p.hurst_threshold < inp.hurst_value i a)) = false := by
    rw [if_neg hft]
    split_ifs <;> simp [hh]
  split_ifs <;> first | rfl | simp_all

/-- An entry flag set by the entry phase comes from an admission whose
score was above the break threshold, with the direction of the flag. -/
theorem entries_phase_flag (inp : SimInputs α) (p : SimParams α) (i : ℕ) (st : SimSt α)
    (lx sx : ℕ → Bool) (a : ℕ) :
    ((entries_phase inp p i st lx sx).2.1 a = true →
        -(10 : α) ^ 9 < entryScores inp p i st lx sx a ∧ entryDirs inp p i st lx sx a = 1) ∧
      ((entries_phase inp p i st lx sx).2.2 a = true →
        -(10 : α) ^ 9 < entryScores inp p i st lx sx a ∧ entryDirs inp p i st lx sx a ≠ 1) := by
  simp only [entries_phase]
  split_ifs with hb
  · constructor
    · intro h
      rcases (entryLoop_flag inp p i (entryScores inp p i st lx sx)
          (entryDirs inp p i st lx sx) a _ _).1 h with h' | h'
      · exact absurd h' (by simp)
      · exact ⟨not_le.1 h'.1, h'.2⟩
    · intro h
      rcases (entryLoop_flag inp p i (entryScores inp p i st lx sx)
          (entryDirs inp p i st lx sx) a _ _).2 h with h' | h'
      · exact absurd h' (by simp)
      · exact ⟨not_le.1 h'.1, h'.2⟩
  · constructor <;> intro h <;> exact absurd h (by simp)

/-- A score above the break threshold identifies an in-range asset whose
candidate evaluation succeeded. -/
theorem entryScores_spec (inp : SimInputs α) (p : SimParams α) (i : ℕ) (st : SimSt α)
    (lx sx : ℕ → Bool) (a : ℕ) (h : -(10 : α) ^ 9 < entryScores inp p i st lx sx a) :
    a < inp.n_assets ∧ -(10 : α) ^ 9 < (candidate inp p i a st lx sx).1 ∧
      entryDirs inp p i st lx sx a = (candidate inp p i a st lx sx).2 := by
  have hsent : ¬(-(10 : α) ^ 9 < -(10 : α) ^ 10) := not_lt.2 (sentinel_le α)
  by_cases ha : a < inp.n_assets
  · refine ⟨ha, ?_, ?_⟩
    · simpa [entryScores, ha] using h
    · simp [entryDirs, ha]
  · exact absurd (by simpa [entryScores, ha] using h) hsent

/-- A short-entry flag forces a strictly negative higher-timeframe
direction at that bar. -/
theorem entries_phase_short_dir (inp : SimInputs α) (p : SimParams α) (i : ℕ)
    (st : SimSt α) (lx sx : ℕ → Bool) (a : ℕ)
    (h : (entries_phase inp p i st lx sx).2.2 a = true) :
    inp.htf_direction i a < 0 := by
  obtain ⟨hsc, hdir⟩ := (entries_phase_flag inp p i st lx sx a).2 h
  obtain ⟨_, hcand, hdeq⟩ := entryScores_spec inp p i st lx sx a hsc
  rcases (candidate_spec inp p i a st lx sx hcand).2.2.2.2 with h' | h'
  · exact absurd (hdeq.trans h'.1) hdir
  · exact h'.2

/-- An admitted asset (either direction) was flat after this bar's exits
and had no exit flag this bar. -/
theorem entries_phase_admitted (inp : SimInputs α) (p : SimParams α) (i : ℕ)
    (st : SimSt α) (lx sx : ℕ → Bool) (a : ℕ)
    (h : (entries_phase inp p i st lx sx).2.1 a = true ∨
      (entries_phase inp p i st lx sx).2.2 a = true) :
    a < inp.n_assets ∧ (st.asset a).in_position_long = false ∧
      (st.asset a).in_position_short = false ∧ lx a = false ∧ sx a = false := by
  have hsc : -(10 : α) ^ 9 < entryScores inp p i st lx sx a := by
    rcases h with h | h
    · exact ((entries_phase_flag inp p i st lx sx a).1 h).1
    · exact ((entries_phase_flag inp p i st lx sx a).2 h).1
  obtain ⟨ha, hcand, _⟩ := entryScores_spec inp p i st lx sx a hsc
  have := candidate_spec inp p i a st lx sx hcand
  exact ⟨ha, this.1, this.2.1, this.2.2.1, this.2.2.2.1⟩

/-- The final output matrices of `simN` agree with the step that wrote the
row: rows other than `i` pass through `stepBar _ _ i` unchanged. -/
theorem stepBar_row_ne (inp : SimInputs α) (p : SimParams α) (i i' a : ℕ)
    (o : SimOut α) (h : i' ≠ i) :
    (stepBar inp p i o).long_entries i' a = o.long_entries i' a ∧
      (stepBar inp p i o).long_exits i' a = o.long_exits i' a ∧
      (stepBar inp p i o).short_entries i' a = o.short_entries i' a ∧
      (stepBar inp p i o).short_exits i' a = o.short_exits i' a := by
  simp [stepBar, h]

/-- Rows not yet processed are still all-`false`. -/
theorem simN_row_gt (inp : SimInputs α) (p : SimParams α) (i' a : ℕ) :
    ∀ k, k < i' →
      (simN inp p k).long_entries i' a = false ∧
        (simN inp p k).long_exits i' a = false ∧
        (simN inp p k).short_entries i' a = false ∧
        (simN inp p k).short_exits i' a = false
  | 0, _ => ⟨rfl, rfl, rfl, rfl⟩
  | k + 1, hk => by
    have ih := simN_row_gt inp p i' a k (Nat.lt_of_succ_lt hk)
    have hne : i' ≠ k + 1 := fun he => absurd hk (by simp [he])
    have hr := stepBar_row_ne inp p (k + 1) i' a (simN inp p k) hne
    exact ⟨hr.1.trans ih.1, hr.2.1.trans ih.2.1, hr.2.2.1.trans ih.2.2.1,
      hr.2.2.2.trans ih.2.2.2⟩

/-- Row `i'` of the matrices is fixed from step `i'` on. -/
theorem simN_row_stable (inp : SimInputs α) (p : SimParams α) (i' a : ℕ) :
    ∀ k, i' ≤ k →
      (simN inp p k).long_entries i' a = (simN inp p i').long_entries i' a ∧
        (simN inp p k).long_exits i' a = (simN inp p i').long_exits i' a ∧
        (simN inp p k).short_entries i' a = (simN inp p i').short_entries i' a ∧
        (simN inp p k).short_exits i' a = (simN inp p i').short_exits i' a
  | 0, hk => by
    have : i' = 0 := Nat.le_zero.1 hk
    subst this
    exact ⟨rfl, rfl, rfl, rfl⟩
  | k + 1, hk => by
    rcases Nat.lt_or_ge k i' with hlt | hge
    · have : i' = k + 1 := Nat.le_antisymm hk hlt
      subst this
      exact ⟨rfl, rfl, rfl, rfl⟩
    · have ih := simN_row_stable inp p i' a k hge
      have hne : i' ≠ k + 1 := Nat.ne_of_lt (Nat.lt_succ_of_le hge)
      have hr := stepBar_row_ne inp p (k + 1) i' a (simN inp p k) hne
      exact ⟨hr.1.trans ih.1, hr.2.1.trans ih.2.1, hr.2.2.1.trans ih.2.2.1,
        hr.2.2.2.trans ih.2.2.2⟩

/-- Row `i = k + 1` of the matrices, as written by step `k + 1`. -/
theorem simN_row_eq (inp : SimInputs α) (p : SimParams α) (k a : ℕ) :
    (simN inp p (k + 1)).long_entries (k + 1) a =
        (entries_phase inp p (k + 1) (exits_phase inp p (k + 1) (simN inp p k).st).1
          (exits_phase inp p (k + 1) (simN inp p k).st).2.1
          (exits_phase inp p (k + 1) (simN inp p k).st).2.2).2.1 a ∧
      (simN inp p (k + 1)).short_entries (k + 1) a =
        (entries_phase inp p (k + 1) (exits_phase inp p (k + 1) (simN inp p k).st).1
          (exits_phase inp p (k + 1) (simN inp p k).st).2.1
          (exits_phase inp p (k + 1) (simN inp p k).st).2.2).2.2 a ∧
      (simN inp p (k + 1)).long_exits (k + 1) a =
        (exits_phase inp p (k + 1) (simN inp p k).st).2.1 a ∧
      (simN inp p (k + 1)).short_exits (k + 1) a =
        (exits_phase inp p (k + 1) (simN inp p k).st).2.2 a := by
  refine ⟨?_, ?_, ?_, ?_⟩ <;> simp [simN, stepBar]

/-- The final matrices at row `i ≤ n_time - 1` agree with the matrices right
after step `i`. -/
theorem final_eq_row (inp : SimInputs α) (p : SimParams α) (i a : ℕ)
    (h : i ≤ inp.n_time - 1) :
    (simulate_portfolio_nb inp p).long_entries i a = (simN inp p i).long_entries i a ∧
      (simulate_portfolio_nb inp p).long_exits i a = (simN inp p i).long_exits i a ∧
      (simulate_portfolio_nb inp p).short_entries i a = (simN inp p i).short_entries i a ∧
      (simulate_portfolio_nb inp p).short_exits i a = (simN inp p i).short_exits i a :=
  simN_row_stable inp p i a (inp.n_time - 1) h

/-- Rows beyond the processed range are all-`false`. -/
theorem final_false_of_gt (inp : SimInputs α) (p : SimParams α) (i a : ℕ)
    (h : inp.n_time - 1 < i) :
    (simulate_portfolio_nb inp p).long_entries i a = false ∧
      (simulate_portfolio_nb inp p).long_exits i a = false ∧
      (simulate_portfolio_nb inp p).short_entries i a = false ∧
      (simulate_portfolio_nb inp p).short_exits i a = false :=
  simN_row_gt inp p i a (inp.n_time - 1) h

/-! ## Claim theorems for the simulation engine -/

/-- C9: row 0 (the first bar) of all four output matrices of the simulation
engine is entirely `False`: bar processing starts at index 1 and the
matrices are initialised to zeros, so no entry or exit ever fires at the
first bar. -/
theorem C9_first_row_false (inp : SimInputs α) (p : SimParams α) (a : ℕ) :
    (simulate_portfolio_nb inp p).long_entries 0 a = false ∧
      (simulate_portfolio_nb inp p).long_exits 0 a = false ∧
      (simulate_portfolio_nb inp p).short_entries 0 a = false ∧
      (simulate_portfolio_nb inp p).short_exits 0 a = false := by
  have key : ∀ k, (simN inp p (α := α) k).long_entries 0 a = false ∧
      (simN inp p (α := α) k).long_exits 0 a = false ∧
      (simN inp p (α := α) k).short_entries 0 a = false ∧
      (simN inp p (α := α) k).short_exits 0 a = false := by
    intro k
    induction k with
    | zero => exact ⟨rfl, rfl, rfl, rfl⟩
    | succ k ih =>
      have hr := stepBar_row_ne inp p (k + 1) 0 a (simN inp p k) (Nat.succ_ne_zero k).symm
      exact ⟨hr.1.trans ih.1, hr.2.1.trans ih.2.1, hr.2.2.1.trans ih.2.2.1,
        hr.2.2.2.trans ih.2.2.2⟩
  exact key (inp.n_time - 1)

/-- C10: a short entry emitted by the simulation engine at bar `i`, asset
`a` implies `htf_direction[i, a]` is strictly negative: when the
higher-timeframe direction is exactly 0 the asset is evaluated only as a
LONG candidate, so a short entry can never fire there. -/
theorem C10_short_entry_negative_htf (inp : SimInputs α) (p : SimParams α) (i a : ℕ)
    (h : (simulate_portfolio_nb inp p).short_entries i a = true) :
    inp.htf_direction i a < 0 := by
  rcases Nat.lt_or_ge (inp.n_time - 1) i with hgt | hle
  · exact absurd ((final_false_of_gt inp p i a hgt).2.2.1.symm.trans h) (by simp)
  · have hrow : (simN inp p i).short_entries i a = true :=
      ((final_eq_row inp p i a hle).2.2.1.symm.trans h)
    cases i with
    | zero => exact absurd hrow (by simp [simN, initSimOut])
    | succ k =>
      rw [(simN_row_eq inp p k a).2.1] at hrow
      exact entries_phase_short_dir inp p (k + 1) _ _ _ a hrow

/-- C2 (amended): if the persistence score is below the persistence
threshold at every bar for an asset, the Signal Combiner emits NEUTRAL and
— provided the macro filter includes the persistence filter
(`macro_filter_type ≠ chop`) — the Simulation Engine emits zero entries for
that asset across the whole run. -/
theorem C2_no_signal_below_threshold (inp : SimInputs α) (p : SimParams α) (a : ℕ)
    (hft : p.filter_type ≠ 0)
    (hh : ∀ i, inp.hurst_value i a < p.hurst_threshold) :
    (∀ phase hv thr : α, hv < thr →
        determine_signal (α := α) p.pi phase hv thr = Signal.neutral) ∧
      ∀ i, (simulate_portfolio_nb inp p).long_entries i a = false ∧
        (simulate_portfolio_nb inp p).short_entries i a = false := by
  have main : ∀ i, ¬((simulate_portfolio_nb inp p).long_entries i a = true ∨
      (simulate_portfolio_nb inp p).short_entries i a = true) := by
    intro i hbad
    rcases Nat.lt_or_ge (inp.n_time - 1) i with hgt | hle
    · rcases hbad with h | h
      · exact absurd ((final_false_of_gt inp p i a hgt).1.symm.trans h) (by simp)
      · exact absurd ((final_false_of_gt inp p i a hgt).2.2.1.symm.trans h) (by simp)
    · have hrow : (simN inp p i).long_entries i a = true ∨
          (simN inp p i).short_entries i a = true := by
        rcases hbad with h | h
        · exact Or.inl ((final_eq_row inp p i a hle).1.symm.trans h)
        · exact Or.inr ((final_eq_row inp p i a hle).2.2.1.symm.trans h)
      cases i with
      | zero => rcases hrow with h | h <;> exact absurd h (by simp [simN, initSimOut])
      | succ k =>
        rw [(simN_row_eq inp p k a).1] at hrow
        rw [(simN_row_eq inp p k a).2.1] at hrow
        have hsc : -(10 : α) ^ 9 <
            entryScores inp p (k + 1) (exits_phase inp p (k + 1) (simN inp p k).st).1
              (exits_phase inp p (k + 1) (simN inp p k).st).2.1
              (exits_phase inp p (k + 1) (simN inp p k).st).2.2 a := by
          rcases hrow with h | h
          · exact ((entries_phase_flag inp p (k + 1) _ _ _ a).1 h).1
          · exact ((entries_phase_flag inp p (k + 1) _ _ _ a).2 h).1
        obtain ⟨ha, hcand, _⟩ := entryScores_spec inp p (k + 1) _ _ _ a hsc
        rw [candidate_hurst inp p (k + 1) a _ _ _ hft (lt_asymm (hh (k + 1)))] at hcand
        exact absurd hcand (not_lt.2 (sentinel_le α))
  refine ⟨?_, ?_⟩
  · intro phase hv thr hlt
    simp [determine_signal, hlt]
  · intro i
    exact ⟨Bool.eq_false_iff.2 (fun h => main i (Or.inl h)),
      Bool.eq_false_iff.2 (fun h => main i (Or.inr h))⟩

/-! ### The open-trade budget accounting (C3) -/

theorem exit_step_not_both (inp : SimInputs α) (p : SimParams α) (i a : ℕ) (s : AssetSt α) :
    ¬((exit_step inp p i a s).2.1 = true ∧ (exit_step inp p i a s).2.2 = true) := by
  simp only [exit_step]
  split_ifs <;> simp

/-- Pointwise accounting of the exit dispatch: the position indicator drops
by exactly the exit indicator. -/
theorem exit_step_posInd (inp : SimInputs α) (p : SimParams α) (i a : ℕ) (s : AssetSt α)
    (hexcl : ¬(s.in_position_long = true ∧ s.in_position_short = true)) :
    posInd ((exit_step inp p i a s).1) =
      posInd s - (if (exit_step inp p i a s).2.1 || (exit_step inp p i a s).2.2 then 1 else 0) := by
  obtain ⟨hL, hS⟩ := exit_step_flags inp p i a s
  have hfL := (exit_step_fire inp p i a s).1
  have hfS := (exit_step_fire inp p i a s).2
  cases hsl : s.in_position_long <;> cases hss : s.in_position_short <;>
    cases hel : (exit_step inp p i a s).2.1 <;> cases hes : (exit_step inp p i a s).2.2 <;>
    simp_all [posInd] <;> omega

/-- Exclusivity is preserved by the exit dispatch. -/
theorem exit_step_excl (inp : SimInputs α) (p : SimParams α) (i a : ℕ) (s : AssetSt α)
    (hexcl : ¬(s.in_position_long = true ∧ s.in_position_short = true)) :
    ¬(((exit_step inp p i a s).1.in_position_long = true ∧
      (exit_step inp p i a s).1.in_position_short = true)) := by
  obtain ⟨hL, hS⟩ := exit_step_flags inp p i a s
  cases hsl : s.in_position_long <;> cases hss : s.in_position_short <;> simp_all

/-- Phase-1 accounting: after the exits the counter still equals the number
of open positions, has not increased, and exclusivity is preserved. -/
theorem exits_phase_acct (inp : SimInputs α) (p : SimParams α) (i : ℕ) (st : SimSt α)
    (hexcl : exclusive st) (hcnt : st.open_trades_count = openZ inp.n_assets st) :
    (exits_phase inp p i st).1.open_trades_count = openZ inp.n_assets (exits_phase inp p i st).1 ∧
      (exits_phase inp p i st).1.open_trades_count ≤ st.open_trades_count ∧
      exclusive (exits_phase inp p i st).1 := by
  set n := inp.n_assets with hn
  have hpoint : ∀ a ∈ Finset.range n,
      posInd ((exits_phase inp p i st).1.asset a) =
        posInd (st.asset a) -
          (if (exits_phase inp p i st).2.1 a || (exits_phase inp p i st).2.2 a
            then (1 : ℤ) else 0) := by
    intro a ha
    have ha' : a < n := Finset.mem_range.1 ha
    simp only [exits_phase, ha', if_true, decide_eq_true_eq, ← hn]
    simpa using exit_step_posInd inp p i a (st.asset a) (hexcl a)
  have hsum : openZ n (exits_phase inp p i st).1 =
      openZ n st - ∑ a in Finset.range n,
        (if (exits_phase inp p i st).2.1 a || (exits_phase inp p i st).2.2 a
          then (1 : ℤ) else 0) := by
    rw [openZ, Finset.sum_congr rfl hpoint, Finset.sum_sub_distrib]
    rfl
  have hcount : (exits_phase inp p i st).1.open_trades_count =
      st.open_trades_count - ∑ a in Finset.range n,
        (if (exits_phase inp p i st).2.1 a || (exits_phase inp p i st).2.2 a
          then (1 : ℤ) else 0) := rfl
  have hnonneg : (0 : ℤ) ≤ ∑ a in Finset.range n,
      (if (exits_phase inp p i st).2.1 a || (exits_phase inp p i st).2.2 a
        then (1 : ℤ) else 0) :=
    Finset.sum_nonneg fun a _ => by split_ifs <;> norm_num
  refine ⟨?_, ?_, ?_⟩
  · rw [hcount, hsum, hcnt]
  · rw [hcount]; linarith
  · intro b
    by_cases hb : b < n
    · have : (exits_phase inp p i st).1.asset b = (exit_step inp p i b (st.asset b)).1 := by
        simp [exits_phase, hb, ← hn]
      rw [this]
      exact exit_step_excl inp p i b (st.asset b) (hexcl b)
    · have : (exits_phase inp p i st).1.asset b = st.asset b := by
        simp [exits_phase, hb, ← hn]
      rw [this]
      exact hexcl b

/-- Admission accounting: admitting a flat in-range asset raises the number
of open positions by exactly one. -/
theorem enter_asset_openZ (inp : SimInputs α) (p : SimParams α) (i a : ℕ) (d : ℤ)
    (st : SimSt α) (n : ℕ) (ha : a < n)
    (hfl : (st.asset a).in_position_long = false)
    (hfs : (st.asset a).in_position_short = false) :
    openZ n (enter_asset inp p i a d st).1 = openZ n st + 1 := by
  obtain ⟨hL, hS⟩ := enter_asset_flags inp p i a d st
  have hpoint : ∀ b ∈ Finset.range n,
      posInd ((enter_asset inp p i a d st).1.asset b) =
        posInd (st.asset b) + (if b = a then (1 : ℤ) else 0) := by
    intro b _
    by_cases hb : b = a
    · subst hb
      cases hd : decide (d = 1) <;> simp_all [posInd]
    · rw [enter_asset_ne inp p i a d st b hb, if_neg hb, add_zero]
  rw [openZ, Finset.sum_congr rfl hpoint, Finset.sum_add_distrib]
  rw [Finset.sum_ite_eq' (Finset.range n) a (fun _ => (1 : ℤ))]
  rw [if_pos (Finset.mem_range.2 ha)]
  rfl

/-- Admission preserves exclusivity when the admitted asset was flat. -/
theorem enter_asset_excl (inp : SimInputs α) (p : SimParams α) (i a : ℕ) (d : ℤ)
    (st : SimSt α)
    (hfl : (st.asset a).in_position_long = false)
    (hfs : (st.asset a).in_position_short = false)
    (hexcl : exclusive st) : exclusive (enter_asset inp p i a d st).1 := by
  obtain ⟨hL, hS⟩ := enter_asset_flags inp p i a d st
  intro b
  by_cases hb : b = a
  · subst hb
    cases hd : decide (d = 1) <;> simp_all
  · rw [enter_asset_ne inp p i a d st b hb]
    exact hexcl b

/-- The admission loop keeps the counter equal to the number of open
positions, within the budget, and keeps exclusivity, provided the candidate
list has no duplicates and the accumulator state agrees with the phase-2
start state `st0` on the unprocessed candidates. -/
theorem entryLoop_acct (inp : SimInputs α) (p : SimParams α) (i : ℕ) (st0 : SimSt α)
    (lx sx : ℕ → Bool) :
    ∀ (l : List ℕ) (acc : SimSt α × (ℕ → Bool) × (ℕ → Bool)),
      l.Nodup →
      (∀ b ∈ l, acc.1.asset b = st0.asset b) →
      acc.1.open_trades_count = openZ inp.n_assets acc.1 →
      acc.1.open_trades_count ≤ p.max_concurrent_trades →
      exclusive acc.1 →
      ((entryLoop inp p i (entryScores inp p i st0 lx sx) (entryDirs inp p i st0 lx sx)
            l acc).1.open_trades_count =
          openZ inp.n_assets (entryLoop inp p i (entryScores inp p i st0 lx sx)
            (entryDirs inp p i st0 lx sx) l acc).1 ∧
        (entryLoop inp p i (entryScores inp p i st0 lx sx) (entryDirs inp p i st0 lx sx)
            l acc).1.open_trades_count ≤ p.max_concurrent_trades ∧
        exclusive (entryLoop inp p i (entryScores inp p i st0 lx sx)
          (entryDirs inp p i st0 lx sx) l acc).1)
  | [], acc => fun _ _ hcnt hle hexcl => ⟨hcnt, hle, hexcl⟩
  | hd :: tl, acc => by
    intro hnd hagree hcnt hle hexcl
    simp only [entryLoop]
    split_ifs with hbr hlong
    · exact ⟨hcnt, hle, hexcl⟩
    all_goals {
      have hsc : ¬(entryScores inp p i st0 lx sx hd ≤ -(10 : α) ^ 9) := fun h => hbr (Or.inl h)
      have hcm : acc.1.open_trades_count < p.max_concurrent_trades :=
        lt_of_not_le fun h => hbr (Or.inr h)
      obtain ⟨hdn, hcand, _⟩ := entryScores_spec inp p i st0 lx sx hd (not_le.1 hsc)
      have hflat := candidate_spec inp p i hd st0 lx sx hcand
      have hacc_hd : acc.1.asset hd = st0.asset hd := hagree hd (List.mem_cons_self hd tl)
      have hfl : (acc.1.asset hd).in_position_long = false := by rw [hacc_hd]; exact hflat.1
      have hfs : (acc.1.asset hd).in_position_short = false := by rw [hacc_hd]; exact hflat.2.1
      have hnd' : tl.Nodup := (List.nodup_cons.1 hnd).2
      have hhd_tl : hd ∉ tl := (List.nodup_cons.1 hnd).1
      refine entryLoop_acct inp p i st0 lx sx tl _ hnd' ?_ ?_ ?_ ?_
      · intro b hb
        have hbne : b ≠ hd := fun he => hhd_tl (he ▸ hb)
        show (enter_asset inp p i hd (entryDirs inp p i st0 lx sx hd) acc.1).1.asset b
          = st0.asset b
        rw [enter_asset_ne inp p i hd _ acc.1 b hbne]
        exact hagree b (List.mem_cons_of_mem hd hb)
      · show (enter_asset inp p i hd _ acc.1).1.open_trades_count
          = openZ inp.n_assets (enter_asset inp p i hd _ acc.1).1
        rw [enter_asset_count, enter_asset_openZ inp p i hd _ acc.1 inp.n_assets hdn hfl hfs,
          hcnt]
      · show (enter_asset inp p i hd _ acc.1).1.open_trades_count ≤ p.max_concurrent_trades
        rw [enter_asset_count]
        omega
      · exact enter_asset_excl inp p i hd _ acc.1 hfl hfs hexcl
    }

/-- Phase-2 accounting: the entry phase keeps the three invariants. -/
theorem entries_phase_acct (inp : SimInputs α) (p : SimParams α) (i : ℕ) (st : SimSt α)
    (lx sx : ℕ → Bool) (hexcl : exclusive st)
    (hcnt : st.open_trades_count = openZ inp.n_assets st)
    (hle : st.open_trades_count ≤ p.max_concurrent_trades) :
    ((entries_phase inp p i st lx sx).1.open_trades_count =
        openZ inp.n_assets (entries_phase inp p i st lx sx).1 ∧
      (entries_phase inp p i st lx sx).1.open_trades_count ≤ p.max_concurrent_trades ∧
      exclusive (entries_phase inp p i st lx sx).1) := by
  simp only [entries_phase]
  split_ifs with hb
  · have hnodup : (List.insertionSort
        (fun a b => entryScores inp p i st lx sx b ≤ entryScores inp p i st lx sx a)
        (List.range inp.n_assets)).Nodup :=
      ((List.perm_insertionSort _ (List.range inp.n_assets)).symm).nodup (List.nodup_range _)
    exact entryLoop_acct inp p i st lx sx _ (st, fun _ => false, fun _ => false)
      hnodup (fun _ _ => rfl) hcnt hle hexcl
  · exact ⟨hcnt, hle, hexcl⟩

/-- One whole bar keeps the three invariants. -/
theorem stepBar_acct (inp : SimInputs α) (p : SimParams α) (i : ℕ) (o : SimOut α)
    (hexcl : exclusive o.st)
    (hcnt : o.st.open_trades_count = openZ inp.n_assets o.st)
    (hle : o.st.open_trades_count ≤ p.max_concurrent_trades) :
    ((stepBar inp p i o).st.open_trades_count =
        openZ inp.n_assets (stepBar inp p i o).st ∧
      (stepBar inp p i o).st.open_trades_count ≤ p.max_concurrent_trades ∧
      exclusive (stepBar inp p i o).st) := by
  obtain ⟨h1, h2, h3⟩ := exits_phase_acct inp p i o.st hexcl hcnt
  have hle1 : (exits_phase inp p i o.st).1.open_trades_count ≤ p.max_concurrent_trades :=
    le_trans h2 hle
  have := entries_phase_acct inp p i (exits_phase inp p i o.st).1
    (exits_phase inp p i o.st).2.1 (exits_phase inp p i o.st).2.2 h3 h1 hle1
  simpa [stepBar] using this

/-- The invariants hold at every simulated bar boundary. -/
theorem simN_acct (inp : SimInputs α) (p : SimParams α)
    (h : 0 ≤ p.max_concurrent_trades) :
    ∀ k, (simN inp p (α := α) k).st.open_trades_count =
        openZ inp.n_assets (simN inp p (α := α) k).st ∧
      (simN inp p (α := α) k).st.open_trades_count ≤ p.max_concurrent_trades ∧
      exclusive (simN inp p (α := α) k).st
  | 0 => by
    refine ⟨?_, by simpa [simN, initSimOut] using h, ?_⟩
    · simp [simN, initSimOut, openZ, posInd]
    · intro b
      simp [simN, initSimOut]
  | k + 1 => by
    obtain ⟨h1, h2, h3⟩ := simN_acct inp p h k
    exact stepBar_acct inp p (k + 1) (simN inp p k) h3 h1 h2

/-- C3: for every input with `max_concurrent_trades ≥ 0`, the open-trade
counter satisfies `0 ≤ open_trades_count ≤ max_concurrent_trades` at every
simulated bar boundary (`simN _ _ k` is the state after processing bars
`1 .. k`; the full run is `simulate_portfolio_nb = simN _ _ (n_time - 1)`).
No combination of same-bar exits and admissions can drive the count
negative or above the cap. -/
theorem C3_budget_invariant (inp : SimInputs α) (p : SimParams α)
    (h : 0 ≤ p.max_concurrent_trades) (k : ℕ) :
    0 ≤ (simN inp p (α := α) k).st.open_trades_count ∧
      (simN inp p (α := α) k).st.open_trades_count ≤ p.max_concurrent_trades := by
  obtain ⟨h1, h2, _⟩ := simN_acct inp p h k
  refine ⟨?_, h2⟩
  rw [h1]
  exact Finset.sum_nonneg fun b _ => by simp only [posInd]; split_ifs <;> norm_num

/-! ### The per-asset state machine (C4, C8) -/

/-- A positioned (or exiting) asset is rejected with the sentinel score. -/
theorem candidate_guard (inp : SimInputs α) (p : SimParams α) (i a : ℕ) (st : SimSt α)
    (lx sx : ℕ → Bool)
    (h : (st.asset a).in_position_long = true ∨ (st.asset a).in_position_short = true ∨
      lx a = true ∨ sx a = true) :
    (candidate inp p i a st lx sx).1 = -(10 : α) ^ 10 := by
  simp only [candidate]
  rw [if_pos]
  simp only [Bool.or_eq_true]
  tauto

/-- The score of a positioned asset is below the break threshold. -/
theorem entryScores_le_of_pos (inp : SimInputs α) (p : SimParams α) (i : ℕ) (st : SimSt α)
    (lx sx : ℕ → Bool) (a : ℕ)
    (h : (st.asset a).in_position_long = true ∨ (st.asset a).in_position_short = true) :
    entryScores inp p i st lx sx a ≤ -(10 : α) ^ 9 := by
  by_cases ha : a < inp.n_assets
  · rw [entryScores, if_pos ha, candidate_guard inp p i a st lx sx (by tauto)]
    exact sentinel_le α
  · rw [entryScores, if_neg ha]
    exact sentinel_le α

/-- The entry phase does not touch an asset whose score is at most the
break threshold. -/
theorem entries_phase_keep_of_score (inp : SimInputs α) (p : SimParams α) (i : ℕ)
    (st : SimSt α) (lx sx : ℕ → Bool) (a : ℕ)
    (hs : entryScores inp p i st lx sx a ≤ -(10 : α) ^ 9) :
    (entries_phase inp p i st lx sx).1.asset a = st.asset a := by
  simp only [entries_phase]
  split_ifs with hb
  · exact (entryLoop_skip inp p i (entryScores inp p i st lx sx)
      (entryDirs inp p i st lx sx) a hs _ _).1
  · rfl

/-- The entry phase does not touch a positioned asset. -/
theorem entries_phase_keep (inp : SimInputs α) (p : SimParams α) (i : ℕ) (st : SimSt α)
    (lx sx : ℕ → Bool) (a : ℕ)
    (h : (st.asset a).in_position_long = true ∨ (st.asset a).in_position_short = true) :
    (entries_phase inp p i st lx sx).1.asset a = st.asset a :=
  entries_phase_keep_of_score inp p i st lx sx a (entryScores_le_of_pos inp p i st lx sx a h)

/-- The entry phase does not touch an asset that exited this bar. -/
theorem entries_phase_keep_of_exit (inp : SimInputs α) (p : SimParams α) (i : ℕ)
    (st : SimSt α) (lx sx : ℕ → Bool) (a : ℕ) (h : lx a = true ∨ sx a = true) :
    (entries_phase inp p i st lx sx).1.asset a = st.asset a := by
  refine entries_phase_keep_of_score inp p i st lx sx a ?_
  by_cases ha : a < inp.n_assets
  · rw [entryScores, if_pos ha, candidate_guard inp p i a st lx sx (by tauto)]
    exact sentinel_le α
  · rw [entryScores, if_neg ha]
    exact sentinel_le α

/-- The asset array after phase 1, explicitly. -/
theorem exits_phase_asset (inp : SimInputs α) (p : SimParams α) (i : ℕ) (st : SimSt α)
    (a : ℕ) :
    (exits_phase inp p i st).1.asset a =
      if a < inp.n_assets then (exit_step inp p i a (st.asset a)).1 else st.asset a := rfl

/-- The exit rows, explicitly. -/
theorem exits_phase_row (inp : SimInputs α) (p : SimParams α) (i : ℕ) (st : SimSt α)
    (a : ℕ) :
    (exits_phase inp p i st).2.1 a =
        (decide (a < inp.n_assets) && (exit_step inp p i a (st.asset a)).2.1) ∧
      (exits_phase inp p i st).2.2 a =
        (decide (a < inp.n_assets) && (exit_step inp p i a (st.asset a)).2.2) := ⟨rfl, rfl⟩

/-- An exit row flag fires only out of the corresponding open state. -/
theorem exits_phase_fire (inp : SimInputs α) (p : SimParams α) (i : ℕ) (st : SimSt α)
    (a : ℕ) :
    ((exits_phase inp p i st).2.1 a = true → (st.asset a).in_position_long = true) ∧
      ((exits_phase inp p i st).2.2 a = true → (st.asset a).in_position_short = true) := by
  rw [(exits_phase_row inp p i st a).1, (exits_phase_row inp p i st a).2]
  constructor <;> intro h <;> rw [Bool.and_eq_true] at h
  · exact (exit_step_fire inp p i a (st.asset a)).1 h.2
  · exact (exit_step_fire inp p i a (st.asset a)).2 h.2

/-- The state after a full bar, explicitly. -/
theorem simN_succ_st (inp : SimInputs α) (p : SimParams α) (k : ℕ) :
    (simN inp p (k + 1)).st =
      (entries_phase inp p (k + 1) (exits_phase inp p (k + 1) (simN inp p k).st).1
        (exits_phase inp p (k + 1) (simN inp p k).st).2.1
        (exits_phase inp p (k + 1) (simN inp p k).st).2.2).1 := by
  simp [simN, stepBar]

/-- The exit dispatch on an asset that is long. -/
theorem exit_step_long_eq (inp : SimInputs α) (p : SimParams α) (i a : ℕ) (s : AssetSt α)
    (h : s.in_position_long = true) :
    (exit_step inp p i a s).1 = (long_exit_step p (inp.close i a) (inp.high i a) (inp.atr i a) s).1 ∧
      (exit_step inp p i a s).2.1 = (long_exit_step p (inp.close i a) (inp.high i a) (inp.atr i a) s).2 ∧
      (exit_step inp p i a s).2.2 = false := by
  refine ⟨?_, ?_, ?_⟩ <;> simp [exit_step, h]

/-- The exit dispatch on an asset that is short (and not long). -/
theorem exit_step_short_eq (inp : SimInputs α) (p : SimParams α) (i a : ℕ) (s : AssetSt α)
    (hl : s.in_position_long = false) (hs : s.in_position_short = true) :
    (exit_step inp p i a s).1 = (short_exit_step p (inp.close i a) (inp.low i a) (inp.atr i a) s).1 ∧
      (exit_step inp p i a s).2.2 = (short_exit_step p (inp.close i a) (inp.low i a) (inp.atr i a) s).2 ∧
      (exit_step inp p i a s).2.1 = false := by
  refine ⟨?_, ?_, ?_⟩ <;> simp [exit_step, hl, hs]

/-- An entry flag set by the entry phase leaves the asset in the
corresponding open state at the end of the bar. -/
theorem entryLoop_flag_pos (inp : SimInputs α) (p : SimParams α) (i : ℕ) (scores : ℕ → α)
    (dirs : ℕ → ℤ) (a : ℕ) :
    ∀ (l : List ℕ) (acc : SimSt α × (ℕ → Bool) × (ℕ → Bool)),
      (acc.2.1 a = true → (acc.1.asset a).in_position_long = true) →
      (acc.2.2 a = true → (acc.1.asset a).in_position_short = true) →
      (((entryLoop inp p i scores dirs l acc).2.1 a = true →
          ((entryLoop inp p i scores dirs l acc).1.asset a).in_position_long = true) ∧
        ((entryLoop inp p i scores dirs l acc).2.2 a = true →
          ((entryLoop inp p i scores dirs l acc).1.asset a).in_position_short = true))
  | [], acc => fun hL hS => ⟨hL, hS⟩
  | hd :: tl, acc => by
    intro hL hS
    simp only [entryLoop]
    split_ifs with hbr hlong
    · exact ⟨hL, hS⟩
    · -- long admission of hd
      have hdir := enter_asset_dir inp p i hd (dirs hd) acc.1
      rw [hdir, decide_eq_true_eq] at hlong
      obtain ⟨hfL, hfS⟩ := enter_asset_flags inp p i hd (dirs hd) acc.1
      refine entryLoop_flag_pos inp p i scores dirs a tl _ ?_ ?_
      · intro hset
        by_cases hae : a = hd
        · subst hae
          rw [hfL, hlong]
          simp
        · replace hset : Function.update acc.2.1 hd true a = true := hset
          rw [Function.update_noteq hae] at hset
          show ((enter_asset inp p i hd (dirs hd) acc.1).1.asset a).in_position_long = true
          rw [enter_asset_ne inp p i hd (dirs hd) acc.1 a hae]
          exact hL hset
      · intro hset
        replace hset : acc.2.2 a = true := hset
        by_cases hae : a = hd
        · subst hae
          rw [hfS, hlong]
          simpa using hS hset
        · show ((enter_asset inp p i hd (dirs hd) acc.1).1.asset a).in_position_short = true
          rw [enter_asset_ne inp p i hd (dirs hd) acc.1 a hae]
          exact hS hset
    · -- short admission of hd
      have hdir := enter_asset_dir inp p i hd (dirs hd) acc.1
      rw [hdir] at hlong
      have hdne : ¬(dirs hd = 1) := by
        intro h1
        exact hlong (by simp [h1])
      obtain ⟨hfL, hfS⟩ := enter_asset_flags inp p i hd (dirs hd) acc.1
      refine entryLoop_flag_pos inp p i scores dirs a tl _ ?_ ?_
      · intro hset
        replace hset : acc.2.1 a = true := hset
        by_cases hae : a = hd
        · subst hae
          rw [hfL]
          simpa using Or.inr (hL hset)
        · show ((enter_asset inp p i hd (dirs hd) acc.1).1.asset a).in_position_long = true
          rw [enter_asset_ne inp p i hd (dirs hd) acc.1 a hae]
          exact hL hset
      · intro hset
        by_cases hae : a = hd
        · subst hae
          rw [hfS]
          simp [hdne]
        · replace hset : Function.update acc.2.2 hd true a = true := hset
          rw [Function.update_noteq hae] at hset
          show ((enter_asset inp p i hd (dirs hd) acc.1).1.asset a).in_position_short = true
          rw [enter_asset_ne inp p i hd (dirs hd) acc.1 a hae]
          exact hS hset

/-- Phase-level version of `entryLoop_flag_pos`. -/
theorem entries_phase_pos (inp : SimInputs α) (p : SimParams α) (i : ℕ) (st : SimSt α)
    (lx sx : ℕ → Bool) (a : ℕ) :
    ((entries_phase inp p i st lx sx).2.1 a = true →
        ((entries_phase inp p i st lx sx).1.asset a).in_position_long = true) ∧
      ((entries_phase inp p i st lx sx).2.2 a = true →
        ((entries_phase inp p i st lx sx).1.asset a).in_position_short = true) := by
  simp only [entries_phase]
  split_ifs with hb
  · exact entryLoop_flag_pos inp p i _ _ a _ _ (by simp) (by simp)
  · constructor <;> intro h <;> exact absurd h (by simp)

/-- Phase 1 preserves exclusivity (no budget hypothesis). -/
theorem exits_phase_excl (inp : SimInputs α) (p : SimParams α) (i : ℕ) (st : SimSt α)
    (hexcl : exclusive st) : exclusive (exits_phase inp p i st).1 := by
  intro b
  by_cases hb : b < inp.n_assets
  · rw [exits_phase_asset, if_pos hb]
    exact exit_step_excl inp p i b (st.asset b) (hexcl b)
  · rw [exits_phase_asset, if_neg hb]
    exact hexcl b

/-- The admission loop preserves exclusivity (no budget hypothesis). -/
theorem entryLoop_excl (inp : SimInputs α) (p : SimParams α) (i : ℕ) (st0 : SimSt α)
    (lx sx : ℕ → Bool) :
    ∀ (l : List ℕ) (acc : SimSt α × (ℕ → Bool) × (ℕ → Bool)),
      l.Nodup →
      (∀ b ∈ l, acc.1.asset b = st0.asset b) →
      exclusive acc.1 →
      exclusive (entryLoop inp p i (entryScores inp p i st0 lx sx)
        (entryDirs inp p i st0 lx sx) l acc).1
  | [], acc => fun _ _ hexcl => hexcl
  | hd :: tl, acc => by
    intro hnd hagree hexcl
    simp only [entryLoop]
    split_ifs with hbr hlong
    · exact hexcl
    all_goals {
      have hsc : ¬(entryScores inp p i st0 lx sx hd ≤ -(10 : α) ^ 9) := fun h => hbr (Or.inl h)
      obtain ⟨hdn, hcand, _⟩ := entryScores_spec inp p i st0 lx sx hd (not_le.1 hsc)
      have hflat := candidate_spec inp p i hd st0 lx sx hcand
      have hacc_hd : acc.1.asset hd = st0.asset hd := hagree hd (List.mem_cons_self hd tl)
      have hfl : (acc.1.asset hd).in_position_long = false := by rw [hacc_hd]; exact hflat.1
      have hfs : (acc.1.asset hd).in_position_short = false := by rw [hacc_hd]; exact hflat.2.1
      have hnd' : tl.Nodup := (List.nodup_cons.1 hnd).2
      have hhd_tl : hd ∉ tl := (List.nodup_cons.1 hnd).1
      refine entryLoop_excl inp p i st0 lx sx tl _ hnd' ?_ ?_
      · intro b hb
        have hbne : b ≠ hd := fun he => hhd_tl (he ▸ hb)
        show (enter_asset inp p i hd (entryDirs inp p i st0 lx sx hd) acc.1).1.asset b
          = st0.asset b
        rw [enter_asset_ne inp p i hd _ acc.1 b hbne]
        exact hagree b (List.mem_cons_of_mem hd hb)
      · exact enter_asset_excl inp p i hd _ acc.1 hfl hfs hexcl
    }

/-- Exclusivity holds at every bar boundary, unconditionally. -/
theorem simN_exclusive (inp : SimInputs α) (p : SimParams α) :
    ∀ k, exclusive (simN inp p (α := α) k).st
  | 0 => by
    intro b
    simp [simN, initSimOut]
  | k + 1 => by
    have ih := simN_exclusive inp p k
    have h3 := exits_phase_excl inp p (k + 1) (simN inp p k).st ih
    rw [simN_succ_st]
    simp only [entries_phase]
    split_ifs with hb
    · have hnodup := ((List.perm_insertionSort
        (fun a b => entryScores inp p (k + 1) (exits_phase inp p (k + 1) (simN inp p k).st).1
          (exits_phase inp p (k + 1) (simN inp p k).st).2.1
          (exits_phase inp p (k + 1) (simN inp p k).st).2.2 b ≤
          entryScores inp p (k + 1) (exits_phase inp p (k + 1) (simN inp p k).st).1
          (exits_phase inp p (k + 1) (simN inp p k).st).2.1
          (exits_phase inp p (k + 1) (simN inp p k).st).2.2 a)
        (List.range inp.n_assets)).symm).nodup (List.nodup_range _)
      exact entryLoop_excl inp p (k + 1) _ _ _ _ _ hnodup (fun _ _ => rfl) h3
    · exact h3

/-- A long position persists through bars with no long-exit row flag. -/
theorem pos_persist_long (inp : SimInputs α) (p : SimParams α) (a k : ℕ) :
    ∀ j, k ≤ j →
      ((simN inp p (α := α) k).st.asset a).in_position_long = true →
      (∀ m, k < m → m ≤ j → (simN inp p (α := α) m).long_exits m a = false) →
      ((simN inp p (α := α) j).st.asset a).in_position_long = true := by
  intro j
  induction j with
  | zero =>
    intro hkj hlong _
    have : k = 0 := Nat.le_zero.1 hkj
    subst this
    exact hlong
  | succ j ih =>
    intro hkj hlong hnoex
    rcases Nat.lt_or_ge k (j + 1) with hlt | hge
    · have hkj' : k ≤ j := Nat.lt_succ_iff.1 hlt
      have hprev : ((simN inp p (α := α) j).st.asset a).in_position_long = true :=
        ih hkj' hlong (fun m hm1 hm2 => hnoex m hm1 (Nat.le_succ_of_le hm2))
      have hnoex_j1 : (simN inp p (α := α) (j + 1)).long_exits (j + 1) a = false :=
        hnoex (j + 1) hlt (le_refl _)
      rw [(simN_row_eq inp p j a).2.2.1] at hnoex_j1
      by_cases ha : a < inp.n_assets
      · have hfired : (exit_step inp p (j + 1) a ((simN inp p j).st.asset a)).2.1 = false := by
          rw [(exits_phase_row inp p (j + 1) (simN inp p j).st a).1] at hnoex_j1
          simpa [ha] using hnoex_j1
        have hst1 : ((exits_phase inp p (j + 1) (simN inp p j).st).1.asset a).in_position_long
            = true := by
          rw [exits_phase_asset, if_pos ha,
            (exit_step_flags inp p (j + 1) a ((simN inp p j).st.asset a)).1, hfired]
          simp [hprev]
        rw [simN_succ_st, entries_phase_keep _ _ _ _ _ _ a (Or.inl hst1)]
        exact hst1
      · have hst1 : (exits_phase inp p (j + 1) (simN inp p j).st).1.asset a
            = (simN inp p j).st.asset a := by
          rw [exits_phase_asset, if_neg ha]
        rw [simN_succ_st, entries_phase_keep _ _ _ _ _ _ a (by rw [hst1]; exact Or.inl hprev),
          hst1]
        exact hprev
    · have : k = j + 1 := Nat.le_antisymm hkj hge
      subst this
      exact hlong

/-- A short position persists through bars with no short-exit row flag. -/
theorem pos_persist_short (inp : SimInputs α) (p : SimParams α) (a k : ℕ) :
    ∀ j, k ≤ j →
      ((simN inp p (α := α) k).st.asset a).in_position_short = true →
      (∀ m, k < m → m ≤ j → (simN inp p (α := α) m).short_exits m a = false) →
      ((simN inp p (α := α) j).st.asset a).in_position_short = true := by
  intro j
  induction j with
  | zero =>
    intro hkj hlong _
    have : k = 0 := Nat.le_zero.1 hkj
    subst this
    exact hlong
  | succ j ih =>
    intro hkj hlong hnoex
    rcases Nat.lt_or_ge k (j + 1) with hlt | hge
    · have hkj' : k ≤ j := Nat.lt_succ_iff.1 hlt
      have hprev : ((simN inp p (α := α) j).st.asset a).in_position_short = true :=
        ih hkj' hlong (fun m hm1 hm2 => hnoex m hm1 (Nat.le_succ_of_le hm2))
      have hnoex_j1 : (simN inp p (α := α) (j + 1)).short_exits (j + 1) a = false :=
        hnoex (j + 1) hlt (le_refl _)
      rw [(simN_row_eq inp p j a).2.2.2] at hnoex_j1
      by_cases ha : a < inp.n_assets
      · have hfired : (exit_step inp p (j + 1) a ((simN inp p j).st.asset a)).2.2 = false := by
          rw [(exits_phase_row inp p (j + 1) (simN inp p j).st a).2] at hnoex_j1
          simpa [ha] using hnoex_j1
        have hst1 : ((exits_phase inp p (j + 1) (simN inp p j).st).1.asset a).in_position_short
            = true := by
          rw [exits_phase_asset, if_pos ha,
            (exit_step_flags inp p (j + 1) a ((simN inp p j).st.asset a)).2, hfired]
          simp [hprev]
        rw [simN_succ_st, entries_phase_keep _ _ _ _ _ _ a (Or.inr hst1)]
        exact hst1
      · have hst1 : (exits_phase inp p (j + 1) (simN inp p j).st).1.asset a
            = (simN inp p j).st.asset a := by
          rw [exits_phase_asset, if_neg ha]
        rw [simN_succ_st, entries_phase_keep _ _ _ _ _ _ a (by rw [hst1]; exact Or.inr hprev),
          hst1]
        exact hprev
    · have : k = j + 1 := Nat.le_antisymm hkj hge
      subst this
      exact hlong

/-- An exit flag in the final matrices fires only out of the corresponding
open state at the previous bar boundary. -/
theorem final_exit_open (inp : SimInputs α) (p : SimParams α) (i a : ℕ) :
    ((simulate_portfolio_nb inp p).long_exits i a = true →
        ((simN inp p (α := α) (i - 1)).st.asset a).in_position_long = true) ∧
      ((simulate_portfolio_nb inp p).short_exits i a = true →
        ((simN inp p (α := α) (i - 1)).st.asset a).in_position_short = true) := by
  constructor <;> intro h
  · rcases Nat.lt_or_ge (inp.n_time - 1) i with hgt | hle
    · exact absurd ((final_false_of_gt inp p i a hgt).2.1.symm.trans h) (by simp)
    · have hrow : (simN inp p i).long_exits i a = true :=
        (final_eq_row inp p i a hle).2.1.symm.trans h
      cases i with
      | zero => exact absurd hrow (by simp [simN, initSimOut])
      | succ k =>
        rw [(simN_row_eq inp p k a).2.2.1] at hrow
        simpa using (exits_phase_fire inp p (k + 1) (simN inp p k).st a).1 hrow
  · rcases Nat.lt_or_ge (inp.n_time - 1) i with hgt | hle
    · exact absurd ((final_false_of_gt inp p i a hgt).2.2.2.symm.trans h) (by simp)
    · have hrow : (simN inp p i).short_exits i a = true :=
        (final_eq_row inp p i a hle).2.2.2.symm.trans h
      cases i with
      | zero => exact absurd hrow (by simp [simN, initSimOut])
      | succ k =>
        rw [(simN_row_eq inp p k a).2.2.2] at hrow
        simpa using (exits_phase_fire inp p (k + 1) (simN inp p k).st a).2 hrow

/-- An entry flag in the final matrices fires only out of the flat state at
the previous bar boundary, and leaves the asset positioned at this bar's
boundary.  Also: entries only fire for bars `1 ≤ i ≤ n_time - 1`. -/
theorem final_entry_flat (inp : SimInputs α) (p : SimParams α) (i a : ℕ)
    (h : (simulate_portfolio_nb inp p).long_entries i a = true ∨
      (simulate_portfolio_nb inp p).short_entries i a = true) :
    (((simN inp p (α := α) (i - 1)).st.asset a).in_position_long = false ∧
        ((simN inp p (α := α) (i - 1)).st.asset a).in_position_short = false) ∧
      1 ≤ i ∧ i ≤ inp.n_time - 1 ∧ a < inp.n_assets := by
  rcases Nat.lt_or_ge (inp.n_time - 1) i with hgt | hle
  · rcases h with h | h
    · exact absurd ((final_false_of_gt inp p i a hgt).1.symm.trans h) (by simp)
    · exact absurd ((final_false_of_gt inp p i a hgt).2.2.1.symm.trans h) (by simp)
  · have hrow : (simN inp p i).long_entries i a = true ∨
        (simN inp p i).short_entries i a = true := by
      rcases h with h | h
      · exact Or.inl ((final_eq_row inp p i a hle).1.symm.trans h)
      · exact Or.inr ((final_eq_row inp p i a hle).2.2.1.symm.trans h)
    cases i with
    | zero => rcases hrow with h' | h' <;> exact absurd h' (by simp [simN, initSimOut])
    | succ k =>
      rw [(simN_row_eq inp p k a).1] at hrow
      rw [(simN_row_eq inp p k a).2.1] at hrow
      obtain ⟨ha, hfl, hfs, hlx, hsx⟩ :=
        entries_phase_admitted inp p (k + 1) _ _ _ a hrow
      have hfired_l : (exit_step inp p (k + 1) a ((simN inp p k).st.asset a)).2.1 = false := by
        have := (exits_phase_row inp p (k + 1) (simN inp p k).st a).1
        rw [this] at hlx
        simpa [ha] using hlx
      have hfired_s : (exit_step inp p (k + 1) a ((simN inp p k).st.asset a)).2.2 = false := by
        have := (exits_phase_row inp p (k + 1) (simN inp p k).st a).2
        rw [this] at hsx
        simpa [ha] using hsx
      have hst1 := exits_phase_asset inp p (k + 1) (simN inp p k).st a
      rw [hst1, if_pos ha] at hfl hfs
      obtain ⟨hfL, hfS⟩ := exit_step_flags inp p (k + 1) a ((simN inp p k).st.asset a)
      rw [hfL, hfired_l] at hfl
      rw [hfS, hfired_s] at hfs
      simp only [Bool.not_false, Bool.true_and] at hfl hfs
      exact ⟨⟨hfl, hfs⟩, Nat.succ_le_succ (Nat.zero_le k), hle, ha⟩

/-- An entry flag in the final matrices leaves the asset in the
corresponding open state at this bar's boundary. -/
theorem final_entry_pos (inp : SimInputs α) (p : SimParams α) (i a : ℕ) :
    ((simulate_portfolio_nb inp p).long_entries i a = true →
        ((simN inp p (α := α) i).st.asset a).in_position_long = true) ∧
      ((simulate_portfolio_nb inp p).short_entries i a = true →
        ((simN inp p (α := α) i).st.asset a).in_position_short = true) := by
  constructor <;> intro h
  · have hle := (final_entry_flat inp p i a (Or.inl h)).2.2.1
    have hrow : (simN inp p i).long_entries i a = true :=
      (final_eq_row inp p i a hle).1.symm.trans h
    cases i with
    | zero => exact absurd hrow (by simp [simN, initSimOut])
    | succ k =>
      rw [(simN_row_eq inp p k a).1] at hrow
      rw [simN_succ_st]
      exact (entries_phase_pos inp p (k + 1) _ _ _ a).1 hrow
  · have hle := (final_entry_flat inp p i a (Or.inr h)).2.2.1
    have hrow : (simN inp p i).short_entries i a = true :=
      (final_eq_row inp p i a hle).2.2.1.symm.trans h
    cases i with
    | zero => exact absurd hrow (by simp [simN, initSimOut])
    | succ k =>
      rw [(simN_row_eq inp p k a).2.1] at hrow
      rw [simN_succ_st]
      exact (entries_phase_pos inp p (k + 1) _ _ _ a).2 hrow

/-- C4: the per-asset position state follows FLAT → LONG → FLAT and
FLAT → SHORT → FLAT only: an exit matrix cell is `True` only at a bar where
the asset holds the corresponding open position (no exit fires for a flat
asset), an entry fires only for a flat asset, and no two entries fire for
the same asset-direction without an intervening exit of that direction
strictly between them. -/
theorem C4_state_machine (inp : SimInputs α) (p : SimParams α) (i j a : ℕ) :
    ((simulate_portfolio_nb inp p).long_exits i a = true →
        ((simN inp p (α := α) (i - 1)).st.asset a).in_position_long = true) ∧
      ((simulate_portfolio_nb inp p).short_exits i a = true →
        ((simN inp p (α := α) (i - 1)).st.asset a).in_position_short = true) ∧
      ((simulate_portfolio_nb inp p).long_entries i a = true ∨
          (simulate_portfolio_nb inp p).short_entries i a = true →
        ((simN inp p (α := α) (i - 1)).st.asset a).in_position_long = false ∧
          ((simN inp p (α := α) (i - 1)).st.asset a).in_position_short = false) ∧
      (i < j → (simulate_portfolio_nb inp p).long_entries i a = true →
        (simulate_portfolio_nb inp p).long_entries j a = true →
        ∃ m, i < m ∧ m < j ∧ (simulate_portfolio_nb inp p).long_exits m a = true) ∧
      (i < j → (simulate_portfolio_nb inp p).short_entries i a = true →
        (simulate_portfolio_nb inp p).short_entries j a = true →
        ∃ m, i < m ∧ m < j ∧ (simulate_portfolio_nb inp p).short_exits m a = true) := by
  refine ⟨(final_exit_open inp p i a).1, (final_exit_open inp p i a).2,
    fun h => (final_entry_flat inp p i a h).1, ?_, ?_⟩
  · intro hij hi hj
    by_contra hno
    push_neg at hno
    have hjflat := final_entry_flat inp p j a (Or.inl hj)
    have hipos := (final_entry_pos inp p i a).1 hi
    have hpersist : ((simN inp p (α := α) (j - 1)).st.asset a).in_position_long = true := by
      refine pos_persist_long inp p a i (j - 1) (by omega) hipos ?_
      intro m hm1 hm2
      have hmle : m ≤ inp.n_time - 1 := le_trans hm2 (by omega)
      have hrow := (final_eq_row inp p m a hmle).2.1
      rw [← hrow]
      rcases Bool.eq_false_or_eq_true ((simulate_portfolio_nb inp p).long_exits m a)
        with ht | hf
      · exact absurd ht (hno m hm1 (by omega))
      · exact hf
    exact absurd hpersist (by simp [hjflat.1.1])
  · intro hij hi hj
    by_contra hno
    push_neg at hno
    have hjflat := final_entry_flat inp p j a (Or.inr hj)
    have hipos := (final_entry_pos inp p i a).2 hi
    have hpersist : ((simN inp p (α := α) (j - 1)).st.asset a).in_position_short = true := by
      refine pos_persist_short inp p a i (j - 1) (by omega) hipos ?_
      intro m hm1 hm2
      have hmle : m ≤ inp.n_time - 1 := le_trans hm2 (by omega)
      have hrow := (final_eq_row inp p m a hmle).2.2.2
      rw [← hrow]
      rcases Bool.eq_false_or_eq_true ((simulate_portfolio_nb inp p).short_exits m a)
        with ht | hf
      · exact absurd ht (hno m hm1 (by omega))
      · exact hf
    exact absurd hpersist (by simp [hjflat.1.2])

/-- C8: while a position stays open across a bar, its stop-loss is
monotone: for a LONG position the stop never decreases from one bar
boundary to the next (it only ratchets up via the trailing candidate or the
breakeven level), and for a SHORT position the stop never increases. -/
theorem C8_stop_monotone (inp : SimInputs α) (p : SimParams α) (k a : ℕ) :
    ((((simN inp p (α := α) k).st.asset a).in_position_long = true →
        (((simN inp p (α := α) (k + 1)).st.asset a).in_position_long = true →
        ((simN inp p (α := α) k).st.asset a).stop_loss ≤
          ((simN inp p (α := α) (k + 1)).st.asset a).stop_loss))) ∧
      ((((simN inp p (α := α) k).st.asset a).in_position_short = true →
        (((simN inp p (α := α) (k + 1)).st.asset a).in_position_short = true →
        ((simN inp p (α := α) (k + 1)).st.asset a).stop_loss ≤
          ((simN inp p (α := α) k).st.asset a).stop_loss))) := by
  constructor
  · intro h1 h2
    by_cases ha : a < inp.n_assets
    · rcases Bool.eq_false_or_eq_true
        (exit_step inp p (k + 1) a ((simN inp p k).st.asset a)).2.1 with hfired | hfired
      · -- a long exit fired: the asset cannot be long again at the same bar
        have hlx : (exits_phase inp p (k + 1) (simN inp p k).st).2.1 a = true := by
          rw [(exits_phase_row inp p (k + 1) (simN inp p k).st a).1]
          simp [ha, hfired]
        have hst1 : ((exits_phase inp p (k + 1) (simN inp p k).st).1.asset a).in_position_long
            = false := by
          rw [exits_phase_asset, if_pos ha,
            (exit_step_flags inp p (k + 1) a ((simN inp p k).st.asset a)).1, hfired]
          simp
        have hfin : (simN inp p (α := α) (k + 1)).st.asset a
            = (exits_phase inp p (k + 1) (simN inp p k).st).1.asset a := by
          rw [simN_succ_st]
          exact entries_phase_keep_of_exit _ _ _ _ _ _ a (Or.inl hlx)
        rw [hfin, hst1] at h2
        exact absurd h2 (by simp)
      · -- no long exit: the stop only ratchets up, entries leave it alone
        have hst1 : ((exits_phase inp p (k + 1) (simN inp p k).st).1.asset a).in_position_long
            = true := by
          rw [exits_phase_asset, if_pos ha,
            (exit_step_flags inp p (k + 1) a ((simN inp p k).st.asset a)).1, hfired]
          simp [h1]
        have hfin : (simN inp p (α := α) (k + 1)).st.asset a
            = (exits_phase inp p (k + 1) (simN inp p k).st).1.asset a := by
          rw [simN_succ_st]
          exact entries_phase_keep _ _ _ _ _ _ a (Or.inl hst1)
        rw [hfin, exits_phase_asset, if_pos ha,
          (exit_step_long_eq inp p (k + 1) a ((simN inp p k).st.asset a) h1).1]
        exact long_exit_step_stop ..
    · have hst1 : (exits_phase inp p (k + 1) (simN inp p k).st).1.asset a
          = (simN inp p k).st.asset a := by
        rw [exits_phase_asset, if_neg ha]
      have hfin : (simN inp p (α := α) (k + 1)).st.asset a = (simN inp p k).st.asset a := by
        rw [simN_succ_st, entries_phase_keep _ _ _ _ _ _ a (by rw [hst1]; exact Or.inl h1),
          hst1]
      rw [hfin]
  · intro h1 h2
    by_cases ha : a < inp.n_assets
    · rcases Bool.eq_false_or_eq_true
        (exit_step inp p (k + 1) a ((simN inp p k).st.asset a)).2.2 with hfired | hfired
      · have hsx : (exits_phase inp p (k + 1) (simN inp p k).st).2.2 a = true := by
          rw [(exits_phase_row inp p (k + 1) (simN inp p k).st a).2]
          simp [ha, hfired]
        have hst1 : ((exits_phase inp p (k + 1) (simN inp p k).st).1.asset a).in_position_short
            = false := by
          rw [exits_phase_asset, if_pos ha,
            (exit_step_flags inp p (k + 1) a ((simN inp p k).st.asset a)).2, hfired]
          simp
        have hfin : (simN inp p (α := α) (k + 1)).st.asset a
            = (exits_phase inp p (k + 1) (simN inp p k).st).1.asset a := by
          rw [simN_succ_st]
          exact entries_phase_keep_of_exit _ _ _ _ _ _ a (Or.inr hsx)
        rw [hfin, hst1] at h2
        exact absurd h2 (by simp)
      · have hst1 : ((exits_phase inp p (k + 1) (simN inp p k).st).1.asset a).in_position_short
            = true := by
          rw [exits_phase_asset, if_pos ha,
            (exit_step_flags inp p (k + 1) a ((simN inp p k).st.asset a)).2, hfired]
          simp [h1]
        have hfin : (simN inp p (α := α) (k + 1)).st.asset a
            = (exits_phase inp p (k + 1) (simN inp p k).st).1.asset a := by
          rw [simN_succ_st]
          exact entries_phase_keep _ _ _ _ _ _ a (Or.inr hst1)
        rcases Bool.eq_false_or_eq_true
          ((simN inp p k).st.asset a).in_position_long with hnl | hnl
        · -- long and short both set is impossible at a bar boundary
          exact absurd ⟨hnl, h1⟩ (simN_exclusive inp p k a)
        · rw [hfin, exits_phase_asset, if_pos ha,
            (exit_step_short_eq inp p (k + 1) a ((simN inp p k).st.asset a) hnl h1).1]
          exact short_exit_step_stop ..
    · have hst1 : (exits_phase inp p (k + 1) (simN inp p k).st).1.asset a
          = (simN inp p k).st.asset a := by
        rw [exits_phase_asset, if_neg ha]
      have hfin : (simN inp p (α := α) (k + 1)).st.asset a = (simN inp p k).st.asset a := by
        rw [simN_succ_st, entries_phase_keep _ _ _ _ _ _ a (by rw [hst1]; exact Or.inr h1),
          hst1]
      rw [hfin]

/-! ## Persistence estimator theorems (C5) -/

theorem le_foldl_max : ∀ (xs : List α) (x : α), x ≤ xs.foldl max x
  | [], _ => le_refl _
  | y :: ys, x => le_trans (le_max_left x y) (le_foldl_max ys (max x y))

theorem foldl_min_le : ∀ (xs : List α) (x : α), xs.foldl min x ≤ x
  | [], _ => le_refl _
  | y :: ys, x => le_trans (foldl_min_le ys (min x y)) (min_le_left x y)

theorem foldl_max_le : ∀ (xs : List α) (x c : α), x ≤ c → (∀ y ∈ xs, y ≤ c) →
    xs.foldl max x ≤ c
  | [], _, _, hx, _ => hx
  | y :: ys, x, c, hx, hall =>
    foldl_max_le ys (max x y) c (max_le hx (hall y (List.mem_cons_self y ys)))
      (fun z hz => hall z (List.mem_cons_of_mem y hz))

theorem le_foldl_min : ∀ (xs : List α) (x c : α), c ≤ x → (∀ y ∈ xs, c ≤ y) →
    c ≤ xs.foldl min x
  | [], _, _, hx, _ => hx
  | y :: ys, x, c, hx, hall =>
    le_foldl_min ys (min x y) c (le_min hx (hall y (List.mem_cons_self y ys)))
      (fun z hz => hall z (List.mem_cons_of_mem y hz))

theorem mem_le_foldl_max : ∀ (xs : List α) (x y : α), y ∈ xs → y ≤ xs.foldl max x
  | [], _, _, h => absurd h (List.not_mem_nil _)
  | z :: zs, x, y, h => by
    rcases List.mem_cons.1 h with rfl | h'
    · exact le_trans (le_max_right x y) (le_foldl_max zs (max x y))
    · exact mem_le_foldl_max zs (max x z) y h'

theorem foldl_min_le_mem : ∀ (xs : List α) (x y : α), y ∈ xs → xs.foldl min x ≤ y
  | [], _, _, h => absurd h (List.not_mem_nil _)
  | z :: zs, x, y, h => by
    rcases List.mem_cons.1 h with rfl | h'
    · exact le_trans (foldl_min_le zs (min x y)) (min_le_right x y)
    · exact foldl_min_le_mem zs (min x z) y h'

theorem listMax_spec (l : List α) (c : α) (hmem : c ∈ l) (hle : ∀ y ∈ l, y ≤ c) :
    listMax l = c := by
  cases l with
  | nil => exact absurd hmem (List.not_mem_nil _)
  | cons x xs =>
    refine le_antisymm ?_ ?_
    · exact foldl_max_le xs x c (hle x (List.mem_cons_self x xs))
        (fun y hy => hle y (List.mem_cons_of_mem x hy))
    · rcases List.mem_cons.1 hmem with rfl | h'
      · exact le_foldl_max xs c
      · exact mem_le_foldl_max xs x c h'

theorem listMin_spec (l : List α) (c : α) (hmem : c ∈ l) (hle : ∀ y ∈ l, c ≤ y) :
    listMin l = c := by
  cases l with
  | nil => exact absurd hmem (List.not_mem_nil _)
  | cons x xs =>
    refine le_antisymm ?_ ?_
    · rcases List.mem_cons.1 hmem with rfl | h'
      · exact foldl_min_le xs c
      · exact foldl_min_le_mem xs x c h'
    · exact le_foldl_min xs x c (hle x (List.mem_cons_self x xs))
        (fun y hy => hle y (List.mem_cons_of_mem x hy))

theorem listMin_le_listMax (l : List α) (h : l ≠ []) : listMin l ≤ listMax l := by
  cases l with
  | nil => exact absurd rfl h
  | cons x xs =>
    exact le_trans (foldl_min_le xs x) (le_foldl_max xs x)

/-- Every summed sub-series `R/S` value is nonnegative at the real square
root (the range is nonnegative, the standard deviation positive when the
sub-series is not skipped). -/
theorem rsOfSub_nonneg (prices : List ℝ) (start size : ℕ) (hsz : 0 < size) :
    0 ≤ (rsOfSub Real.sqrt prices start size).getD 0 := by
  rw [rsOfSub]
  split_ifs with h
  · simp
  · have hstd : 0 < subStd Real.sqrt prices start size :=
      lt_of_le_of_ne (Real.sqrt_nonneg _) (Ne.symm h)
    have hne : (List.range size).map (cumDev prices start size) ≠ [] := by
      simp [List.map_eq_nil, List.range_eq_nil]
      omega
    have hmm := listMin_le_listMax ((List.range size).map (cumDev prices start size)) hne
    simp only [Option.getD_some]
    exact div_nonneg (sub_nonneg.2 hmm) (le_of_lt hstd)

/-- The averaged `R/S` is nonnegative at the real square root. -/
theorem rsAvg_nonneg (prices : List ℝ) (size : ℕ) (hsz : 0 < size) :
    0 ≤ rsAvg Real.sqrt prices size := by
  rw [rsAvg]
  split_ifs with h
  · exact le_refl 0
  · push_neg at h
    refine div_nonneg ?_ (by positivity)
    exact Finset.sum_nonneg fun j _ => rsOfSub_nonneg prices (j * size) size hsz

/-- C5 (amended): the OLS regression of `log(R/S)` against `log(size)` is
computed over exactly the sub-series sizes whose averaged `R/S` value is
strictly greater than 1 (the code keeps a size iff `log(R/S) > 0`), and
when fewer than 2 such sizes exist the estimator returns 0.5. -/
theorem C5_regression_slots (prices : List ℝ) :
    (∀ i, (0 < log_rs Real.log Real.sqrt prices i ↔
        1 < rsAvg Real.sqrt prices (2 ^ (i + 2)))) ∧
      ((((Finset.range (Nat.log2 prices.length - 2 + 1)).filter
          (fun i => 1 < rsAvg Real.sqrt prices (2 ^ (i + 2)))).card < 2) →
        hurst_rs Real.log Real.sqrt prices = 1 / 2) := by
  have hiff : ∀ i, (0 < log_rs Real.log Real.sqrt prices i ↔
      1 < rsAvg Real.sqrt prices (2 ^ (i + 2))) := by
    intro i
    simp only [log_rs, rsAvg]
    by_cases h1 : prices.length / 2 ^ (i + 2) = 0
    · rw [if_pos h1, if_pos (Or.inl h1)]
      simp
    · rw [if_neg h1]
      by_cases hc : 0 < rsCount Real.sqrt prices (2 ^ (i + 2))
      · rw [if_pos hc, if_neg (by push_neg; exact ⟨h1, by omega⟩)]
        have hvnn : 0 ≤ rsSum Real.sqrt prices (2 ^ (i + 2)) /
            (rsCount Real.sqrt prices (2 ^ (i + 2)) : ℝ) := by
          refine div_nonneg ?_ (by positivity)
          exact Finset.sum_nonneg fun j _ => rsOfSub_nonneg prices _ _ (by positivity)
        rcases eq_or_lt_of_le hvnn with he | hlt
        · rw [← he]
          simp
        · rw [Real.log_pos_iff hlt]
      · rw [if_neg hc, if_pos (Or.inr (by omega))]
        simp
  refine ⟨hiff, ?_⟩
  intro hcard
  simp only [hurst_rs]
  by_cases h1 : prices.length < 20
  · rw [if_pos h1]
  · rw [if_neg h1]
    by_cases h2 : Nat.log2 prices.length ≤ 2
    · rw [if_pos h2]
    · rw [if_neg h2]
      have hfe : (Finset.range (Nat.log2 prices.length - 2 + 1)).filter
          (fun i => 0 < log_rs Real.log Real.sqrt prices i) =
        (Finset.range (Nat.log2 prices.length - 2 + 1)).filter
          (fun i => 1 < rsAvg Real.sqrt prices (2 ^ (i + 2))) :=
        Finset.filter_congr fun i _ => by rw [hiff i]
      rw [hfe, if_pos hcard]

theorem getD_map_range (f : ℕ → α) (n j : ℕ) (hj : j < n) :
    ((List.range n).map f).getD j 0 = f j := by
  simp [List.getD_eq_getElem?_getD, List.getElem?_map, List.getElem?_range, hj]

theorem altPrices_length : (altPrices ℝ).length = 20 := by
  simp [altPrices]

theorem altPrices_getD (j : ℕ) (hj : j < 20) :
    (altPrices ℝ).getD j 0 = if j % 2 = 0 then 0 else 1 := by
  rw [altPrices, getD_map_range _ 20 j hj]

theorem parity_sum (m : ℕ) :
    ∑ t in Finset.range (2 * m), (if t % 2 = 0 then (0 : ℝ) else 1) = m := by
  induction m with
  | zero => simp
  | succ m ih =>
    have h2 : 2 * (m + 1) = (2 * m + 1) + 1 := by ring
    rw [h2, Finset.sum_range_succ, Finset.sum_range_succ, ih]
    have hm0 : (2 * m) % 2 = 0 := by omega
    have hm1 : (2 * m + 1) % 2 = 1 := by omega
    rw [hm0, hm1]
    push_cast
    norm_num

theorem alt_subMean (start m : ℕ) (hst : start % 2 = 0) (hm : 0 < m)
    (hbound : start + 2 * m ≤ 20) :
    subMean (altPrices ℝ) start (2 * m) = 1 / 2 := by
  rw [subMean]
  have hpt : ∀ t ∈ Finset.range (2 * m),
      (altPrices ℝ).getD (start + t) 0 = (if t % 2 = 0 then (0 : ℝ) else 1) := by
    intro t ht
    have ht' : t < 2 * m := Finset.mem_range.1 ht
    rw [altPrices_getD (start + t) (by omega)]
    have : (start + t) % 2 = t % 2 := by omega
    rw [this]
  rw [Finset.sum_congr rfl hpt, parity_sum m]
  have h2m : ((2 * m : ℕ) : ℝ) = 2 * (m : ℝ) := by push_cast; ring
  rw [h2m]
  have hmne : (m : ℝ) ≠ 0 := Nat.cast_ne_zero.2 (by omega)
  field_simp
  ring

theorem alt_subStd (start m : ℕ) (hst : start % 2 = 0) (hm : 0 < m)
    (hbound : start + 2 * m ≤ 20) :
    subStd Real.sqrt (altPrices ℝ) start (2 * m) = 1 / 2 := by
  rw [subStd, alt_subMean start m hst hm hbound]
  have hpt : ∀ t ∈ Finset.range (2 * m),
      ((altPrices ℝ).getD (start + t) 0 - 1 / 2) ^ 2 = 1 / 4 := by
    intro t ht
    have ht' : t < 2 * m := Finset.mem_range.1 ht
    rw [altPrices_getD (start + t) (by omega)]
    split_ifs <;> norm_num
  rw [Finset.sum_congr rfl hpt, Finset.sum_const, Finset.card_range]
  have h2m : ((2 * m : ℕ) : ℝ) = 2 * (m : ℝ) := by push_cast; ring
  have hmne : (m : ℝ) ≠ 0 := Nat.cast_ne_zero.2 (by omega)
  have harg : (2 * m : ℕ) • (1 / 4 : ℝ) / ((2 * m : ℕ) : ℝ) = 1 / 4 := by
    rw [nsmul_eq_mul, h2m]
    field_simp
    ring
  rw [harg, show (1 / 4 : ℝ) = (1 / 2) ^ 2 by norm_num, Real.sqrt_sq (by norm_num)]

theorem alt_cumDev (start m : ℕ) (hst : start % 2 = 0) (hm : 0 < m)
    (hbound : start + 2 * m ≤ 20) (k : ℕ) (hk : k < 2 * m) :
    cumDev (altPrices ℝ) start (2 * m) k = if k % 2 = 0 then -(1 / 2) else 0 := by
  induction k with
  | zero =>
    rw [cumDev, alt_subMean start m hst hm hbound]
    rw [show Finset.range 1 = {0} from rfl, Finset.sum_singleton]
    rw [altPrices_getD (start + 0) (by omega)]
    have : (start + 0) % 2 = 0 := by omega
    rw [this]
    norm_num
  | succ k ih =>
    have hrec : cumDev (altPrices ℝ) start (2 * m) (k + 1) =
        cumDev (altPrices ℝ) start (2 * m) k +
          ((altPrices ℝ).getD (start + (k + 1)) 0 - subMean (altPrices ℝ) start (2 * m)) := by
      rw [cumDev, cumDev, Finset.sum_range_succ]
    rw [hrec, ih (by omega), alt_subMean start m hst hm hbound,
      altPrices_getD (start + (k + 1)) (by omega)]
    have hpar : (start + (k + 1)) % 2 = (k + 1) % 2 := by omega
    rw [hpar]
    rcases Nat.even_or_odd k with he | ho
    · have h1 : k % 2 = 0 := Nat.even_iff.1 he
      have h2 : (k + 1) % 2 = 1 := by omega
      rw [if_pos h1, if_neg (by omega), if_neg (by omega)]
      norm_num
    · have h1 : k % 2 = 1 := Nat.odd_iff.1 ho
      have h2 : (k + 1) % 2 = 0 := by omega
      rw [if_neg (by omega), if_pos h2, if_pos h2]
      norm_num

theorem alt_rsOfSub (start m : ℕ) (hst : start % 2 = 0) (hm : 0 < m)
    (hbound : start + 2 * m ≤ 20) :
    rsOfSub Real.sqrt (altPrices ℝ) start (2 * m) = some 1 := by
  rw [rsOfSub, if_neg (by rw [alt_subStd start m hst hm hbound]; norm_num)]
  have hmax : listMax ((List.range (2 * m)).map (cumDev (altPrices ℝ) start (2 * m))) = 0 := by
    refine listMax_spec _ 0 ?_ ?_
    · refine List.mem_map.2 ⟨1, List.mem_range.2 (by omega), ?_⟩
      rw [alt_cumDev start m hst hm hbound 1 (by omega)]
      norm_num
    · intro y hy
      obtain ⟨k, hk, rfl⟩ := List.mem_map.1 hy
      rw [alt_cumDev start m hst hm hbound k (List.mem_range.1 hk)]
      split_ifs <;> norm_num
  have hmin : listMin ((List.range (2 * m)).map (cumDev (altPrices ℝ) start (2 * m)))
      = -(1 / 2) := by
    refine listMin_spec _ (-(1 / 2)) ?_ ?_
    · refine List.mem_map.2 ⟨0, List.mem_range.2 (by omega), ?_⟩
      rw [alt_cumDev start m hst hm hbound 0 (by omega)]
      norm_num
    · intro y hy
      obtain ⟨k, hk, rfl⟩ := List.mem_map.1 hy
      rw [alt_cumDev start m hst hm hbound k (List.mem_range.1 hk)]
      split_ifs <;> norm_num
  simp only [hmax, hmin, alt_subStd start m hst hm hbound]
  norm_num

theorem alt_slot (size : ℕ) (hsz : size % 2 = 0) (hpos : 0 < size) (hq : 0 < 20 / size) :
    rsSum Real.sqrt (altPrices ℝ) size = ((20 / size : ℕ) : ℝ) ∧
      rsCount Real.sqrt (altPrices ℝ) size = 20 / size ∧
      rsAvg Real.sqrt (altPrices ℝ) size = 1 := by
  obtain ⟨m, rfl⟩ : ∃ m, size = 2 * m := ⟨size / 2, by omega⟩
  have hall : ∀ j < 20 / (2 * m),
      rsOfSub Real.sqrt (altPrices ℝ) (j * (2 * m)) (2 * m) = some 1 := by
    intro j hj
    have hstart : (j * (2 * m)) % 2 = 0 := by
      have he : j * (2 * m) = 2 * (j * m) := by ring
      rw [he]
      exact Nat.mul_mod_right 2 (j * m)
    refine alt_rsOfSub (j * (2 * m)) m hstart (by omega) ?_
    have h1 : (j + 1) * (2 * m) ≤ (20 / (2 * m)) * (2 * m) :=
      Nat.mul_le_mul_right _ (by omega)
    have h2 := Nat.div_mul_le_self 20 (2 * m)
    have h3 : j * (2 * m) + 2 * m = (j + 1) * (2 * m) := by ring
    omega
  have hlen : (altPrices ℝ).length = 20 := altPrices_length
  have hsum : rsSum Real.sqrt (altPrices ℝ) (2 * m) = ((20 / (2 * m) : ℕ) : ℝ) := by
    rw [rsSum, hlen]
    rw [Finset.sum_congr rfl (fun j hj => by rw [hall j (Finset.mem_range.1 hj)])]
    rw [Finset.sum_const, Finset.card_range, nsmul_eq_mul]
    simp
  have hcount : rsCount Real.sqrt (altPrices ℝ) (2 * m) = 20 / (2 * m) := by
    rw [rsCount, hlen]
    rw [Finset.filter_true_of_mem (fun j hj => by
      rw [hall j (Finset.mem_range.1 hj)]
      simp)]
    exact Finset.card_range _
  refine ⟨hsum, hcount, ?_⟩
  rw [rsAvg, hlen, if_neg (by push_neg; exact ⟨by omega, by rw [hcount]; omega⟩),
    hsum, hcount]
  have : ((20 / (2 * m) : ℕ) : ℝ) ≠ 0 := Nat.cast_ne_zero.2 (by omega)
  field_simp

theorem alt_log_rs (i : ℕ) (hi : i < 3) :
    log_rs Real.log Real.sqrt (altPrices ℝ) i = 0 := by
  have hsz : (2 : ℕ) ^ (i + 2) % 2 = 0 := by
    interval_cases i <;> norm_num
  have hpos : 0 < (2 : ℕ) ^ (i + 2) := by positivity
  have hq : 0 < 20 / (2 : ℕ) ^ (i + 2) := by
    interval_cases i <;> norm_num
  obtain ⟨hsum, hcount, _⟩ := alt_slot (2 ^ (i + 2)) hsz hpos hq
  rw [log_rs, altPrices_length]
  rw [if_neg (by omega), if_pos (by rw [hcount]; omega), hsum, hcount]
  have hne : ((20 / (2 : ℕ) ^ (i + 2) : ℕ) : ℝ) ≠ 0 := Nat.cast_ne_zero.2 (by omega)
  rw [div_self hne, Real.log_one]

/-- C5 counterexample: on the alternating 0/1 series of length 20 every
sub-series size has averaged `R/S` exactly 1 — strictly positive — yet the
estimator excludes all of them (it filters on `log(R/S) > 0`, i.e.
`R/S > 1`) and returns the neutral 0.5, while the regression the claim
describes (over all sizes with positive averaged `R/S`) runs and returns 0.
The claim's "exactly the sizes with strictly positive averaged R/S" is
false on the code. -/
theorem C5_counterexample :
    hurst_rs Real.log Real.sqrt (altPrices ℝ) = 1 / 2 ∧
      rsAvg Real.sqrt (altPrices ℝ) 4 = 1 ∧
      hurst_rs_spec Real.log Real.sqrt (altPrices ℝ) = 0 := by
  have hlog2 : Nat.log2 20 = 4 := by simp [Nat.log2]
  have havg : ∀ i, i < 3 → rsAvg Real.sqrt (altPrices ℝ) (2 ^ (i + 2)) = 1 := by
    intro i hi
    have hsz : (2 : ℕ) ^ (i + 2) % 2 = 0 := by interval_cases i <;> norm_num
    have hq : 0 < 20 / (2 : ℕ) ^ (i + 2) := by interval_cases i <;> norm_num
    exact (alt_slot (2 ^ (i + 2)) hsz (by positivity) hq).2.2
  refine ⟨?_, ?_, ?_⟩
  · simp only [hurst_rs, altPrices_length]
    rw [if_neg (by omega), hlog2, if_neg (by omega)]
    have hempty : (Finset.range (4 - 2 + 1)).filter
        (fun i => 0 < log_rs Real.log Real.sqrt (altPrices ℝ) i) = ∅ := by
      refine Finset.filter_eq_empty_iff.2 ?_
      intro i hi
      rw [alt_log_rs i (by simpa using Finset.mem_range.1 hi)]
      exact lt_irrefl 0
    rw [hempty]
    simp
  · exact havg 0 (by norm_num)
  · simp only [hurst_rs_spec, altPrices_length]
    rw [if_neg (by omega), hlog2, if_neg (by omega)]
    have hfull : (Finset.range (4 - 2 + 1)).filter
        (fun i => 0 < rsAvg Real.sqrt (altPrices ℝ) (2 ^ (i + 2))) =
        Finset.range (4 - 2 + 1) := by
      refine Finset.filter_true_of_mem ?_
      intro i hi
      rw [havg i (by simpa using Finset.mem_range.1 hi)]
      norm_num
    rw [hfull]
    rw [if_neg (by simp)]
    have hys : ∀ i ∈ Finset.range (4 - 2 + 1),
        log_rs Real.log Real.sqrt (altPrices ℝ) i = 0 := by
      intro i hi
      exact alt_log_rs i (by simpa using Finset.mem_range.1 hi)
    have hmy : (∑ i in Finset.range (4 - 2 + 1),
        log_rs Real.log Real.sqrt (altPrices ℝ) i) = 0 := by
      rw [Finset.sum_congr rfl hys]
      simp
    have hnum : (∑ i in Finset.range (4 - 2 + 1),
        (log_size Real.log i - (∑ i in Finset.range (4 - 2 + 1), log_size Real.log i) /
          ((Finset.range (4 - 2 + 1)).card : ℝ)) *
        (log_rs Real.log Real.sqrt (altPrices ℝ) i -
          (∑ i in Finset.range (4 - 2 + 1), log_rs Real.log Real.sqrt (altPrices ℝ) i) /
          ((Finset.range (4 - 2 + 1)).card : ℝ))) = 0 := by
      rw [hmy]
      refine Finset.sum_eq_zero ?_
      intro i hi
      rw [hys i hi]
      ring
    have hden : (∑ i in Finset.range (4 - 2 + 1),
        (log_size Real.log i - (∑ i in Finset.range (4 - 2 + 1), log_size Real.log i) /
          ((Finset.range (4 - 2 + 1)).card : ℝ)) ^ 2) ≠ 0 := by
      intro h0
      have hnn : ∀ i ∈ Finset.range (4 - 2 + 1),
          (0 : ℝ) ≤ (log_size Real.log i - (∑ i in Finset.range (4 - 2 + 1),
            log_size Real.log i) / ((Finset.range (4 - 2 + 1)).card : ℝ)) ^ 2 :=
        fun i _ => sq_nonneg _
      have hall := (Finset.sum_eq_zero_iff_of_nonneg hnn).1 h0
      have h0' := hall 0 (by norm_num)
      have h2' := hall 2 (by norm_num)
      rw [pow_eq_zero_iff (by norm_num), sub_eq_zero] at h0' h2'
      have : log_size Real.log 0 = log_size Real.log 2 := h0'.trans h2'.symm
      rw [log_size, log_size] at this
      have h416 : Real.log ((2 ^ (0 + 2) : ℕ) : ℝ) < Real.log ((2 ^ (2 + 2) : ℕ) : ℝ) := by
        refine Real.log_lt_log (by norm_num) ?_
        norm_num
      rw [this] at h416
      exact lt_irrefl _ h416
    rw [hnum, if_neg hden]
    rw [zero_div]
    norm_num

/-! ## Cycle detector theorems (C6, C7) -/

/-- C6: the cycle detector returns `None` iff the input has fewer than 256
samples; when the input passes the length gate but no FFT frequency bin
falls in the band implied by `[min_period, max_period]`, the analysis
returns the degenerate non-`None` result with `dominant_period = 0`,
all-zero phase and projection arrays, `amplitude = 0` and
`current_phase = 0`. -/
theorem C6_none_iff_short_and_degenerate (pi : α) (sinF cosF sqrtF : α → α)
    (angleF : α → α → α) (prices : List α)
    (min_period max_period projection_bars : ℕ) :
    ((detect_dominant_cycle pi sinF cosF sqrtF angleF prices = none) ↔
        prices.length < 256) ∧
      (((List.range (prices.length / 2 + 1)).any
          (validBin (α := α) min_period max_period prices.length)) = false →
        analyze_cycle pi sinF cosF sqrtF angleF prices min_period max_period
            projection_bars =
          ⟨0, List.replicate prices.length 0, List.replicate projection_bars 0, 0, 0⟩) := by
  constructor
  · rw [detect_dominant_cycle]
    split_ifs with h
    · simp [h]
    · simp [h]
  · intro h
    rw [analyze_cycle, if_pos h]

/-- C7 (amended): for every cycle analysis on an `n`-sample price series the
returned `phase_array` has length `n` (one value per input bar), and its
elements are samples of the fitted sine wave — bounded in magnitude by the
amplitude — not phases: they need not lie in `[0, 2π)`. -/
theorem C7_phase_array_length_and_bound (prices : List ℝ)
    (min_period max_period projection_bars : ℕ) :
    (analyze_cycle Real.pi Real.sin Real.cos Real.sqrt (fun y x => Complex.arg ⟨x, y⟩)
        prices min_period max_period projection_bars).phase_array.length =
      prices.length ∧
      ∀ j, |(analyze_cycle Real.pi Real.sin Real.cos Real.sqrt
          (fun y x => Complex.arg ⟨x, y⟩) prices min_period max_period
          projection_bars).phase_array.getD j 0| ≤
        |(analyze_cycle Real.pi Real.sin Real.cos Real.sqrt
          (fun y x => Complex.arg ⟨x, y⟩) prices min_period max_period
          projection_bars).amplitude| := by
  rw [analyze_cycle]
  split_ifs with h
  · refine ⟨by simp, ?_⟩
    intro j
    rcases Nat.lt_or_ge j prices.length with hj | hj
    · rw [List.getD_eq_getElem?_getD]
      simp [List.getElem?_replicate, hj]
    · rw [List.getD_eq_getElem?_getD, List.getElem?_eq_none (by simpa using hj)]
      simp
  · simp only [analyze_cycle_main]
    refine ⟨by simp, ?_⟩
    intro j
    rcases Nat.lt_or_ge j prices.length with hj | hj
    · rw [getD_map_range _ _ j hj, abs_mul]
      exact le_trans
        (mul_le_mul_of_nonneg_left (Real.abs_sin_le_one _) (abs_nonneg _))
        (le_of_eq (mul_one _))
    · rw [List.getD_eq_getElem?_getD, List.getElem?_eq_none (by simpa using hj)]
      simp

/-! ## C2 counterexample: the chop-only configuration ignores persistence -/

theorem fmod_zero_left (b : α) : fmod (0 : α) b = 0 := by
  simp [fmod]

theorem fmod_two_two_pi (pi : α) (hpi : 1 < pi) : fmod (2 : α) (2 * pi) = 2 := by
  have hpi0 : (0 : α) < pi := lt_trans one_pos hpi
  have h1 : (2 : α) / (2 * pi) = 1 / pi := by
    field_simp
  have hfl : ⌊(1 : α) / pi⌋ = 0 := by
    rw [Int.floor_eq_zero_iff]
    constructor
    · positivity
    · rw [div_lt_one hpi0]
      exact hpi
  rw [fmod, h1, hfl]
  ring

/-- With the chop-only macro filter, the `scenNoHurst` run admits a long
entry at bar 1 even though the persistence value is 0 everywhere. -/
theorem scenChop_entry (pi : α) (hpi : 1 < pi) :
    (simulate_portfolio_nb (scenNoHurst α) (scenChopP α pi)).long_entries 1 0 = true := by
  have hf0 := fmod_zero_left (α := α) (2 * pi)
  have hf2 := fmod_two_two_pi pi hpi
  have hcore : (simN (scenNoHurst α) (scenChopP α pi) 1).long_entries 1 0 = true := by
    simp only [simN, stepBar, exits_phase, exit_step, entries_phase, entryScores, entryDirs,
      candidate, entryLoop, enter_asset, initSimOut, scenNoHurst, scenChopP, scenA, scenP]
    norm_num [hf0, hf2, abs_two, List.insertionSort, List.orderedInsert, Function.update]
  have hle : 1 ≤ (scenNoHurst α).n_time - 1 := by
    norm_num [scenNoHurst, scenA]
  rw [simulate_portfolio_nb,
    (simN_row_stable (scenNoHurst α) (scenChopP α pi) 1 0 ((scenNoHurst α).n_time - 1) hle).1]
  exact hcore

/-- C2 counterexample: the persistence value is 0 at every bar — below the
0.5 threshold — yet with the chop-only macro filter configuration
(`macro_filter_type = "chop"`) the engine emits a long entry at bar 1.  The
claim's "for every configuration" is false on the code: only the
hurst-inclusive filter types gate entries on persistence. -/
theorem C2_counterexample :
    (scenNoHurst ℝ).hurst_value = (fun _ _ => 0) ∧
      (scenChopP ℝ Real.pi).hurst_threshold = 1 / 2 ∧
      (scenChopP ℝ Real.pi).filter_type = 0 ∧
      (simulate_portfolio_nb (scenNoHurst ℝ) (scenChopP ℝ Real.pi)).long_entries 1 0 = true :=
  ⟨rfl, rfl, rfl, scenChop_entry Real.pi (by linarith [Real.pi_gt_three])⟩

/-! ## Parameter sweep theorems (C1) -/

/-- C1 is a code bug: with singleton ranges for the first four parameters
and a two-element macro-filter range, `run_parameter_sweep` appends a
single row (carrying the last filter type) where the specified Cartesian
product has `1·1·1·1·2 = 2` rows — `results.append(row)` sits outside the
innermost loop (vbt_runner.py line 438). -/
theorem C1_sweep_append_outside_inner_loop :
    run_parameter_sweep_rows (α := ℚ) [1] [2] [3] [4] ["chop", "hurst"] =
        some [⟨1, 2, 3, 4, "hurst"⟩] ∧
      (sweep_rows_spec (α := ℚ) [1] [2] [3] [4] ["chop", "hurst"]).length = 2 := by
  exact ⟨rfl, rfl⟩

/-! ## C7 counterexample: the spike series -/

theorem argmaxAux_map_cast (l : List ℚ) (i bi : ℕ) (bv : ℚ) :
    argmaxAux (l.map (fun (q : ℚ) => (q : ℝ))) i bi ((bv : ℝ)) = argmaxAux l i bi bv := by
  induction l generalizing i bi bv with
  | nil => rfl
  | cons v rest ih =>
    simp only [List.map_cons, argmaxAux]
    by_cases h : bv < v
    · rw [if_pos (by exact_mod_cast h), if_pos h, ih]
    · rw [if_neg (by exact_mod_cast h), if_neg h, ih]

theorem argmaxIdx_map_cast (l : List ℚ) :
    argmaxIdx (l.map (fun (q : ℚ) => (q : ℝ))) = argmaxIdx l := by
  cases l with
  | nil => rfl
  | cons v rest =>
    simp only [List.map_cons, argmaxIdx]
    exact argmaxAux_map_cast rest 1 0 v

theorem cexPrices_length : (cexPrices ℝ).length = 256 := by
  simp [cexPrices]

theorem cexPrices_getD (j : ℕ) (hj : j < 256) :
    (cexPrices ℝ).getD j 0 = if j = 32 then 1 else 0 := by
  rw [cexPrices, getD_map_range _ 256 j hj]

theorem cex_detrended (j : ℕ) (hj : j < 256) :
    detrendedF (cexPrices ℝ) j = if j = 32 then 1 else 0 := by
  simp only [detrendedF, cexPrices_length]
  rw [cexPrices_getD j hj, cexPrices_getD 0 (by norm_num),
    cexPrices_getD 255 (by norm_num)]
  norm_num

theorem cex_fftRe (pi : ℝ) (cosF : ℝ → ℝ) (k : ℕ) :
    fftRe pi cosF (cexPrices ℝ) k = cosF (2 * pi * 32 * k / 256) := by
  rw [fftRe, cexPrices_length]
  rw [Finset.sum_congr rfl
    (fun j hj => by rw [cex_detrended j (Finset.mem_range.1 hj)])]
  simp only [ite_mul, one_mul, zero_mul]
  rw [Finset.sum_ite_eq' (Finset.range 256) 32
    (fun j => cosF (2 * pi * (j : ℝ) * (k : ℝ) / ((256 : ℕ) : ℝ)))]
  norm_num

theorem cex_fftIm (pi : ℝ) (sinF : ℝ → ℝ) (k : ℕ) :
    fftIm pi sinF (cexPrices ℝ) k = -sinF (2 * pi * 32 * k / 256) := by
  rw [fftIm, cexPrices_length]
  rw [Finset.sum_congr rfl
    (fun j hj => by rw [cex_detrended j (Finset.mem_range.1 hj)])]
  simp only [ite_mul, one_mul, zero_mul]
  rw [Finset.sum_ite_eq' (Finset.range 256) 32
    (fun j => sinF (2 * pi * (j : ℝ) * (k : ℝ) / ((256 : ℕ) : ℝ)))]
  norm_num

theorem cex_fftPower (k : ℕ) :
    fftPower Real.pi Real.sin Real.cos (cexPrices ℝ) k = 1 := by
  rw [fftPower, cex_fftRe, cex_fftIm, neg_sq]
  exact Real.cos_sq_add_sin_sq _

theorem cex_validBin (k : ℕ) :
    validBin (α := ℝ) 10 200 256 k = decide (2 ≤ k ∧ k ≤ 25) := by
  rw [validBin, if_pos (by norm_num : (0 : ℕ) < 200),
    if_pos (by norm_num : (0 : ℕ) < 10)]
  have h1 : ((1 : ℝ) / ((200 : ℕ) : ℝ) < (k : ℝ) / ((256 : ℕ) : ℝ)) ↔ 2 ≤ k := by
    push_cast
    rw [div_lt_div_iff (by norm_num) (by norm_num)]
    constructor
    · intro h
      by_contra hk
      push_neg at hk
      interval_cases k <;> norm_num at h
    · intro h
      have h2 : (2 : ℝ) ≤ (k : ℝ) := by exact_mod_cast h
      nlinarith
  have h2 : ((k : ℝ) / ((256 : ℕ) : ℝ) ≤ 1 / ((10 : ℕ) : ℝ)) ↔ k ≤ 25 := by
    push_cast
    rw [div_le_div_iff (by norm_num) (by norm_num)]
    constructor
    · intro h
      have h3 : (k : ℝ) * 10 ≤ 256 := by linarith
      have h4 : k * 10 ≤ 256 := by exact_mod_cast h3
      omega
    · intro h
      have h3 : (k : ℝ) ≤ 25 := by exact_mod_cast h
      nlinarith
  by_cases hp : 2 ≤ k ∧ k ≤ 25
  · have ha : decide ((1 : ℝ) / ((200 : ℕ) : ℝ) < (k : ℝ) / ((256 : ℕ) : ℝ)) = true := by
      rw [decide_eq_true_eq]
      exact h1.mpr hp.1
    have hb : decide ((k : ℝ) / ((256 : ℕ) : ℝ) ≤ 1 / ((10 : ℕ) : ℝ)) = true := by
      rw [decide_eq_true_eq]
      exact h2.mpr hp.2
    have hc : decide (2 ≤ k ∧ k ≤ 25) = true := by
      rw [decide_eq_true_eq]
      exact hp
    rw [ha, hb, hc]
    rfl
  · rw [decide_eq_false hp]
    have hor : ¬ ((1 : ℝ) / ((200 : ℕ) : ℝ) < (k : ℝ) / ((256 : ℕ) : ℝ)) ∨
        ¬ ((k : ℝ) / ((256 : ℕ) : ℝ) ≤ 1 / ((10 : ℕ) : ℝ)) := by
      by_contra hc
      push_neg at hc
      exact hp ⟨h1.mp hc.1, h2.mp hc.2⟩
    rcases hor with h | h
    · rw [decide_eq_false h, Bool.false_and]
    · rw [decide_eq_false h, Bool.and_false]

theorem cex_validPower :
    validPower Real.pi Real.sin Real.cos (cexPrices ℝ) 10 200 =
      cexMaskQ.map (fun (q : ℚ) => (q : ℝ)) := by
  rw [validPower, cexPrices_length, cexMaskQ, List.map_map]
  have h129 : (256 : ℕ) / 2 + 1 = 129 := by norm_num
  rw [h129]
  refine List.map_congr_left ?_
  intro k _
  simp only [Function.comp_apply, cex_validBin k, cex_fftPower k]
  by_cases h : 2 ≤ k ∧ k ≤ 25
  · simp [h]
  · simp [h]

theorem cex_peak :
    argmaxIdx (validPower Real.pi Real.sin Real.cos (cexPrices ℝ) 10 200) = 2 := by
  rw [cex_validPower, argmaxIdx_map_cast]
  with_unfolding_all decide

/-- C7 counterexample: on the 256-sample spike series the detector
succeeds (length 256 ≥ 256, band bins 2..25 are valid), yet the first
element of the returned phase array is `-(1/128) < 0` — outside the
claimed interval `[0, 2π)`.  The array holds sine-reconstruction values,
not phases. -/
theorem C7_counterexample :
    detect_dominant_cycle Real.pi Real.sin Real.cos Real.sqrt
        (fun y x => Complex.arg ⟨x, y⟩) (cexPrices ℝ) =
      some (analyze_cycle Real.pi Real.sin Real.cos Real.sqrt
        (fun y x => Complex.arg ⟨x, y⟩) (cexPrices ℝ) 10 200 20) ∧
      (analyze_cycle Real.pi Real.sin Real.cos Real.sqrt
          (fun y x => Complex.arg ⟨x, y⟩) (cexPrices ℝ) 10 200 20).phase_array.getD 0 0 =
        -(1 / 128) ∧
      (-(1 / 128) : ℝ) < 0 := by
  have hre : fftRe Real.pi Real.cos (cexPrices ℝ) 2 = 0 := by
    rw [cex_fftRe]
    have h : 2 * Real.pi * 32 * ((2 : ℕ) : ℝ) / 256 = Real.pi / 2 := by
      push_cast
      ring
    rw [h, Real.cos_pi_div_two]
  have him : fftIm Real.pi Real.sin (cexPrices ℝ) 2 = -1 := by
    rw [cex_fftIm]
    have h : 2 * Real.pi * 32 * ((2 : ℕ) : ℝ) / 256 = Real.pi / 2 := by
      push_cast
      ring
    rw [h, Real.sin_pi_div_two]
  have hargc : Complex.arg ⟨(0 : ℝ), (-1 : ℝ)⟩ = -(Real.pi / 2) := by
    have h : (⟨(0 : ℝ), (-1 : ℝ)⟩ : ℂ) = -Complex.I := by
      simp [Complex.ext_iff]
    rw [h, Complex.arg_neg_I]
  refine ⟨?_, ?_, by norm_num⟩
  · rw [detect_dominant_cycle, if_neg (by simp [cexPrices_length])]
  · have hany : ((List.range ((cexPrices ℝ).length / 2 + 1)).any
        (validBin (α := ℝ) 10 200 (cexPrices ℝ).length)) = true := by
      rw [cexPrices_length]
      refine List.any_eq_true.mpr ⟨2, ?_, ?_⟩
      · simp
      · rw [cex_validBin]
        decide
    rw [analyze_cycle, if_neg (by rw [hany]; simp)]
    simp only [analyze_cycle_main]
    rw [cex_peak, cexPrices_length]
    rw [getD_map_range _ 256 0 (by norm_num)]
    rw [cex_fftPower, hre, him, hargc, Real.sqrt_one]
    have h0 : 2 * Real.pi * (((2 : ℕ) : ℝ) / ((256 : ℕ) : ℝ)) * ((0 : ℕ) : ℝ) +
        -(Real.pi / 2) = -(Real.pi / 2) := by
      push_cast
      ring
    rw [h0, Real.sin_neg, Real.sin_pi_div_two]
    norm_num

/-! ## Witnesses: the claim theorems at concrete inputs -/

/-- Witness for C2: concrete run with persistence 0 below the 0.5
threshold under the hurst-only macro filter — NEUTRAL combiner output and
no entries. -/
theorem C2_witness :
    determine_signal (scenP ℚ (157 / 50)).pi 1 0 (1 / 2) = Signal.neutral ∧
      (simulate_portfolio_nb (scenNoHurst ℚ) (scenP ℚ (157 / 50))).long_entries 1 0 = false ∧
      (simulate_portfolio_nb (scenNoHurst ℚ) (scenP ℚ (157 / 50))).short_entries 1 0 = false := by
  have h := C2_no_signal_below_threshold (scenNoHurst ℚ) (scenP ℚ (157 / 50)) 0
    (by norm_num [scenP]) (fun i => by norm_num [scenNoHurst, scenA, scenP])
  exact ⟨h.1 1 0 (1 / 2) (by norm_num), (h.2 1).1, (h.2 1).2⟩

/-- Witness for C3: the budget bounds at a concrete run. -/
theorem C3_witness :
    0 ≤ (simN (scenA ℚ) (scenP ℚ (157 / 50)) 2).st.open_trades_count ∧
      (simN (scenA ℚ) (scenP ℚ (157 / 50)) 2).st.open_trades_count ≤
        (scenP ℚ (157 / 50)).max_concurrent_trades :=
  C3_budget_invariant (scenA ℚ) (scenP ℚ (157 / 50)) (by norm_num [scenP]) 2

/-- Witness for C4: the long exit fired at bar 2 of the concrete run came
out of an open long position at the bar-1 boundary. -/
theorem C4_witness :
    (simulate_portfolio_nb (scenA ℚ) (scenP ℚ (157 / 50))).long_exits 2 0 = true ∧
      ((simN (scenA ℚ) (scenP ℚ (157 / 50)) 1).st.asset 0).in_position_long = true :=
  ⟨by with_unfolding_all decide,
    (C4_state_machine (scenA ℚ) (scenP ℚ (157 / 50)) 2 0 0).1 (by with_unfolding_all decide)⟩

/-- Witness for C8: in the held-position run the long position is open at
the bar-1 and bar-2 boundaries and its stop did not decrease. -/
theorem C8_witness :
    ((simN (scenHold ℚ) (scenP ℚ (157 / 50)) 1).st.asset 0).in_position_long = true ∧
      ((simN (scenHold ℚ) (scenP ℚ (157 / 50)) 2).st.asset 0).in_position_long = true ∧
      ((simN (scenHold ℚ) (scenP ℚ (157 / 50)) 1).st.asset 0).stop_loss ≤
        ((simN (scenHold ℚ) (scenP ℚ (157 / 50)) 2).st.asset 0).stop_loss :=
  ⟨by with_unfolding_all decide, by with_unfolding_all decide,
    (C8_stop_monotone (scenHold ℚ) (scenP ℚ (157 / 50)) 1 0).1
      (by with_unfolding_all decide) (by with_unfolding_all decide)⟩

/-- Witness for C10: a concrete short entry, and the negative
higher-timeframe direction it implies. -/
theorem C10_witness :
    (simulate_portfolio_nb (scenShort ℚ) (scenShortP ℚ (157 / 50))).short_entries 1 0 = true ∧
      (scenShort ℚ).htf_direction 1 0 < 0 :=
  ⟨by with_unfolding_all decide,
    C10_short_entry_negative_htf (scenShort ℚ) (scenShortP ℚ (157 / 50)) 1 0
      (by with_unfolding_all decide)⟩

/-- Witness for C6: a 4-sample series is rejected with `None`, and an empty
frequency band yields the degenerate result. -/
theorem C6_witness :
    detect_dominant_cycle (0 : ℚ) id id id (fun _ _ => 0) (List.replicate 4 (0 : ℚ)) = none ∧
      analyze_cycle (0 : ℚ) id id id (fun _ _ => 0) (List.replicate 4 (0 : ℚ)) 10 5 7 =
        ⟨0, List.replicate 4 0, List.replicate 7 0, 0, 0⟩ := by
  have h := C6_none_iff_short_and_degenerate (0 : ℚ) id id id (fun _ _ => 0)
    (List.replicate 4 (0 : ℚ)) 10 5 7
  refine ⟨h.1.mpr (by norm_num), ?_⟩
  have h2 := h.2 (by with_unfolding_all decide)
  simpa using h2

/-- Witness for C5: on the alternating series no slot has averaged `R/S`
above 1, so the estimator returns the neutral 0.5. -/
theorem C5_witness :
    hurst_rs Real.log Real.sqrt (altPrices ℝ) = 1 / 2 := by
  refine (C5_regression_slots (altPrices ℝ)).2 ?_
  have hlog2 : Nat.log2 (altPrices ℝ).length = 4 := by
    rw [altPrices_length]
    simp [Nat.log2]
  rw [hlog2]
  have hempty : (Finset.range (4 - 2 + 1)).filter
      (fun i => 1 < rsAvg Real.sqrt (altPrices ℝ) (2 ^ (i + 2))) = ∅ := by
    refine Finset.filter_eq_empty_iff.2 ?_
    intro i hi
    have hi3 : i < 3 := by simpa using Finset.mem_range.1 hi
    have hsz : (2 : ℕ) ^ (i + 2) % 2 = 0 := by interval_cases i <;> norm_num
    have hq : 0 < 20 / (2 : ℕ) ^ (i + 2) := by interval_cases i <;> norm_num
    rw [(alt_slot (2 ^ (i + 2)) hsz (by positivity) hq).2.2]
    norm_num
  rw [hempty]
  norm_num

end RabbitQuant
